import Mathlib

/- Shallow embedding of `src/desktop_entry/mod.rs` (sheosi/to_appimage): a
serde-style serializer that renders an in-memory structured value as
freedesktop "Desktop Entry" text (section headers, Key=Value lines, a
three-level nesting ceiling).

Mutable state (`&mut Serializer`) is modelled by explicit state passing; the
fallible/panicking control flow is modelled by the `Res` outcome threaded next
to the state.  Three ghost fields (`headers`, `keyWrites`, `keyReads`) record
emission events for the invariant claims; they never influence `output`,
`level` or `disable_write_key`, which follow the source line by line. -/

namespace DesktopEntry

/-- The source's error enum: a single `Custom(String)` variant. -/
inductive Error where
  | Custom (msg : String)
deriving DecidableEq

/-- The error value built when a map key or struct field is serialized at
level `l ≥ 4`: `Error::Custom` of the format string naming the offending
level (the spec calls this error kind `StructuralDepthExceeded`). -/
def depthExceededError (l : Nat) : Error :=
  .Custom ("freedesktop entries have a maximum of three levels " ++ toString l)

/-- The `LevelTracker`: the nesting level plus the pending-key slot.  The
source's `level` field is a `u8`, so it is modelled as a `Nat` on which every
increment and decrement is taken modulo 256 — the wrapping arithmetic a
release build performs.  The wrap is reachable: structs never close the level
they open and empty structs dispatch no key, so 255 net opens can occur with
no depth check, after which the next open yields level 0 again.  (A debug
build would abort on the overflowing increment at the same inputs; either
way an unbounded-`Nat` reading is wrong past level 255, and the claims that
touch this are settled against the wrapping model below.) -/
structure LevelTracker where
  level : Nat
  key_name : Option String
deriving DecidableEq

def LevelTracker.new : LevelTracker := { level := 0, key_name := none }

/-- Models `open_level`: the source's `self.level += 1` on a `u8`, wrapping
255 to 0.  (The source also returns the new level; its callers ignore it.) -/
def LevelTracker.open_level (t : LevelTracker) : LevelTracker :=
  { t with level := (t.level + 1) % 256 }

/-- Models `close_level`: leaving level 2 clears the pending key, then the
level is decremented — the source's `self.level -= 1` on a `u8`, wrapping 0
to 255.  (The source also returns the old level; its one caller ignores
it.) -/
def LevelTracker.close_level (t : LevelTracker) : LevelTracker :=
  let t2 := if t.level = 2 then { t with key_name := none } else t
  { t2 with level := (t2.level + 255) % 256 }

def LevelTracker.get_level (t : LevelTracker) : Nat := t.level

def LevelTracker.get_key (t : LevelTracker) : Option String := t.key_name

def LevelTracker.set_key (t : LevelTracker) (k : String) : LevelTracker :=
  { t with key_name := some k }

/-- The serializer state.  `output`, `level`, `disable_write_key` are the
source's fields; `headers`, `keyWrites`, `keyReads` are ghost instrumentation:
`headers` records, in order, the name emitted by each section-header branch
(the level-1 arm of key/field serialization); `keyWrites` records the level at
each `set_key` call; `keyReads` records the level at each read of
`key_name` (in `write_pre_val` and in the level-3 arms). -/
structure Serializer where
  output : String
  level : LevelTracker
  disable_write_key : Bool
  headers : List String
  keyWrites : List Nat
  keyReads : List Nat
deriving DecidableEq

/-- Outcome of one serializer step: success, a returned `Err`, or a Rust
panic (which aborts the whole encode). -/
inductive Res where
  | ok
  | err (e : Error)
  | panicked (msg : String)
deriving DecidableEq

/-- A step result: the serializer state reached, plus the outcome. -/
abbrev Step := Serializer × Res

def stepOk (s : Serializer) : Step := (s, .ok)

/-- Sequencing: later steps run only while the outcome is still `ok`
(modelling `?` propagation and panic unwinding). -/
def bindStep (x : Step) (f : Serializer → Step) : Step :=
  match x with
  | (s, .ok) => f s
  | e => e

/-- Models `self.output += t` / `self.output.push_str(t)`. -/
def emit (s : Serializer) (t : String) : Serializer :=
  { s with output := s.output ++ t }

/-- Models Rust `self.output.ends_with('=')`: the last character is `=`. -/
def endsWithEq (out : String) : Bool := out.data.getLast? == some '='

/-- Models `Serializer::write_pre_val`: at level 2 with key writing enabled, emit
the pending key and `=`.  The source unwraps the pending key; `unwrap` of
`None` is a panic. -/
def write_pre_val (s : Serializer) : Step :=
  if s.level.level == 2 && !s.disable_write_key then
    match s.level.key_name with
    | some k => stepOk (emit { s with keyReads := s.keyReads ++ [2] } (k ++ "="))
    | none => ({ s with keyReads := s.keyReads ++ [2] }, .panicked "unwrap of None key")
  else stepOk s

def serialize_bool (v : Bool) (s : Serializer) : Step :=
  bindStep (write_pre_val s) fun s => stepOk (emit s (if v then "true" else "false"))

/-- Models `serialize_i64` (the `i8`/`i16`/`i32` methods widen into it). -/
def serialize_i64 (v : Int) (s : Serializer) : Step :=
  bindStep (write_pre_val s) fun s => stepOk (emit s (toString v))

/-- Models `serialize_u64` (the `u8`/`u16`/`u32` methods widen into it). -/
def serialize_u64 (v : Nat) (s : Serializer) : Step :=
  bindStep (write_pre_val s) fun s => stepOk (emit s (toString v))

def serialize_str (v : String) (s : Serializer) : Step :=
  bindStep (write_pre_val s) fun s => stepOk (emit s v)

/-- Models `serialize_unit` (also `serialize_none` and `serialize_unit_struct`):
`write_pre_val` then appending the empty string. -/
def serialize_unit (s : Serializer) : Step :=
  bindStep (write_pre_val s) fun s => stepOk (emit s "")

/-- Models `Serializer::serialize_seq`: `write_pre_val`, then key writing is
disabled for the elements. -/
def serialize_seq (s : Serializer) : Step :=
  bindStep (write_pre_val s) fun s => stepOk { s with disable_write_key := true }

/-- The separator logic shared by `SerializeSeq`/`SerializeTuple`/
`SerializeTupleStruct`/`SerializeTupleVariant` element methods: a `;` is
written before the element unless the output still ends with `=`. -/
def seqElemSep (s : Serializer) : Serializer :=
  if endsWithEq s.output then s else emit s ";"

/-- Models `SerializeSeq::end`: trailing `;`, and key writing is re-enabled.
(Only the seq impl re-enables it; the tuple impls do not.) -/
def seqEnd (s : Serializer) : Step :=
  stepOk { emit s ";" with disable_write_key := false }

/-- Models `SerializeTuple::end` / `SerializeTupleStruct::end` /
`SerializeTupleVariant::end`: trailing `;` only. -/
def tupleEnd (s : Serializer) : Step :=
  stepOk (emit s ";")

/-- The value shape model: the serde data model as the source's serializer
receives it.  (Floating point is omitted: no claim concerns it, and `f64`
text rendering has no exact Lean counterpart.) -/
inductive Value where
  | bool (v : Bool)
  | i64 (v : Int)
  | u64 (v : Nat)
  | char (v : Char)
  | str (v : String)
  | bytes (v : List Nat)
  | none
  | some (v : Value)
  | unit
  | unitStruct (name : String)
  | unitVariant (name variant : String)
  | newtypeStruct (name : String) (v : Value)
  | newtypeVariant (name variant : String) (v : Value)
  | seq (items : List Value)
  | tuple (items : List Value)
  | tupleStruct (name : String) (items : List Value)
  | tupleVariant (name variant : String) (items : List Value)
  | map (entries : List (Value × Value))
  | struct (name : String) (fields : List (String × Value))
  | structVariant (name variant : String) (fields : List (String × Value))

/-- The temporary serializer built inside `SerializeMap::serialize_key`
(fresh tracker, key writing disabled). -/
def tempSerializer : Serializer :=
  { output := "", level := LevelTracker.new, disable_write_key := true,
    headers := [], keyWrites := [], keyReads := [] }

/-- The key-dispatch of `SerializeStruct::serialize_field` (the field name is
a static string, serialized into `self` via `serialize_str` in the level-1 and
level-3 arms).  Level 0 is the source's `panic!("EEEErm")` arm; level ≥ 4 is
the depth error. -/
def serialize_fieldKey (name : String) (s : Serializer) : Step :=
  match s.level.level with
  | 0 => (s, .panicked "EEEErm")
  | 1 =>
      bindStep (stepOk (emit s "[")) fun s =>
      bindStep (serialize_str name s) fun s =>
      stepOk (emit { s with headers := s.headers ++ [name] } "]\n")
  | 2 => stepOk { s with level := s.level.set_key name, keyWrites := s.keyWrites ++ [2] }
  | 3 =>
      match s.level.key_name with
      | some kn =>
          bindStep (stepOk (emit { s with keyReads := s.keyReads ++ [3] } (kn ++ "["))) fun s =>
          bindStep (serialize_str name s) fun s =>
          stepOk (emit s "]=")
      | none => ({ s with keyReads := s.keyReads ++ [3] }, .panicked "unwrap of None key")
  | n + 4 => (s, .err (depthExceededError (n + 4)))

/-- Elements of a byte array: `serialize_bytes` feeds each byte through the
seq element method and `serialize_u8`, which widens to `serialize_u64`. -/
def serializeByteElems : List Nat → Serializer → Step
  | [], s => stepOk s
  | b :: rest, s =>
      bindStep (serialize_u64 b (seqElemSep s)) fun s =>
      serializeByteElems rest s

mutual

/-- Models `value.serialize(&mut serializer)`: the double dispatch of the
serde data model onto the source's `Serializer` methods, one arm per shape. -/
def serializeValue : Value → Serializer → Step
  | .bool v, s => serialize_bool v s
  | .i64 v, s => serialize_i64 v s
  | .u64 v, s => serialize_u64 v s
  | .char v, s => serialize_str v.toString s
  | .str v, s => serialize_str v s
  | .bytes v, s =>
      bindStep (write_pre_val s) fun s =>
      bindStep (serialize_seq { s with disable_write_key := true }) fun s =>
      bindStep (serializeByteElems v s) seqEnd
  | .none, s => serialize_unit s
  | .some v, s => serializeValue v s
  | .unit, s => serialize_unit s
  | .unitStruct _, s => serialize_unit s
  | .unitVariant _ variant, s => serialize_str variant s
  | .newtypeStruct _ v, s => serializeValue v s
  | .newtypeVariant _ variant v, s =>
      bindStep (write_pre_val s) fun s =>
      bindStep (serialize_str variant s) fun s =>
      bindStep (stepOk (emit s "=")) fun s =>
      serializeValue v s
  | .seq items, s =>
      bindStep (serialize_seq s) fun s =>
      bindStep (serializeElems items s) seqEnd
  | .tuple items, s =>
      bindStep (serialize_seq s) fun s =>
      bindStep (serializeElems items s) tupleEnd
  | .tupleStruct _ items, s =>
      bindStep (serialize_seq s) fun s =>
      bindStep (serializeElems items s) tupleEnd
  | .tupleVariant _ variant items, s =>
      bindStep (write_pre_val s) fun s =>
      bindStep (stepOk (emit s "\x7b")) fun s =>
      bindStep (serialize_str variant s) fun s =>
      bindStep (stepOk (emit s ":[")) fun s =>
      bindStep (serializeElems items s) tupleEnd
  | .map entries, s =>
      bindStep (stepOk { s with level := s.level.open_level }) fun s =>
      bindStep (serializeEntries entries s) fun s =>
      stepOk { s with level := s.level.close_level }
  | .struct _ fields, s =>
      bindStep (stepOk { s with level := s.level.open_level }) fun s =>
      serializeFields fields s
  | .structVariant _ variant fields, s =>
      bindStep (stepOk (emit s "\x7b")) fun s =>
      bindStep (serialize_str variant s) fun s =>
      bindStep (stepOk (emit s ":\x7b")) fun s =>
      bindStep (serializeSVFields fields s) fun s =>
      stepOk (emit s "\x7d\x7d")

/-- The element loop of a sequence/tuple: separator check, then the element. -/
def serializeElems : List Value → Serializer → Step
  | [], s => stepOk s
  | v :: rest, s =>
      bindStep (serializeValue v (seqElemSep s)) fun s =>
      serializeElems rest s

/-- The entry loop of a map: `SerializeMap::serialize_key` (inlined here so
the recursion stays structural; `serialize_key` below names the same body),
then `serialize_value` (the value followed by a newline).

The key step: the key is first rendered into a fresh temporary serializer
(errors there propagate), then dispatched on the level: 1 emits a section
header, 2 stores the temporary rendering as pending key, 3 emits the
`outer[inner]=` prefix, 0 is the source's `panic!("EEEErm")` arm, ≥ 4 is
the depth error. -/
def serializeEntries : List (Value × Value) → Serializer → Step
  | [], s => stepOk s
  | (k, v) :: rest, s =>
      bindStep
        (match serializeValue k tempSerializer with
         | (temp, .ok) =>
             match s.level.level with
             | 0 => (s, .panicked "EEEErm")
             | 1 =>
                 bindStep (stepOk (emit s "[")) fun s =>
                 bindStep (serializeValue k s) fun s =>
                 stepOk (emit { s with headers := s.headers ++ [temp.output] } "]\n")
             | 2 => stepOk { s with level := s.level.set_key temp.output, keyWrites := s.keyWrites ++ [2] }
             | 3 =>
                 match s.level.key_name with
                 | some kn =>
                     bindStep (stepOk (emit { s with keyReads := s.keyReads ++ [3] } (kn ++ "["))) fun s =>
                     bindStep (serializeValue k s) fun s =>
                     stepOk (emit s "]=")
                 | none => ({ s with keyReads := s.keyReads ++ [3] }, .panicked "unwrap of None key")
             | n + 4 => (s, .err (depthExceededError (n + 4)))
         | (_, .err e) => (s, .err e)
         | (_, .panicked m) => (s, .panicked m))
        fun s =>
      bindStep (serializeValue v s) fun s =>
      bindStep (stepOk (emit s "\n")) fun s =>
      serializeEntries rest s

/-- The field loop of a struct: `SerializeStruct::serialize_field` is the
key dispatch, then the value, then a newline.  `SerializeStruct::end` does
nothing, so no closing step follows the loop. -/
def serializeFields : List (String × Value) → Serializer → Step
  | [], s => stepOk s
  | (name, v) :: rest, s =>
      bindStep (serialize_fieldKey name s) fun s =>
      bindStep (serializeValue v s) fun s =>
      bindStep (stepOk (emit s "\n")) fun s =>
      serializeFields rest s

/-- The field loop of a struct variant: field name via `serialize_str`, a
colon, then the value; no level bookkeeping. -/
def serializeSVFields : List (String × Value) → Serializer → Step
  | [], s => stepOk s
  | (name, v) :: rest, s =>
      bindStep (serialize_str name s) fun s =>
      bindStep (stepOk (emit s ":")) fun s =>
      bindStep (serializeValue v s) fun s =>
      serializeSVFields rest s

end

/-- Models `SerializeMap::serialize_key` as a named function (the body is the one
inlined in `serializeEntries`; `serializeEntries_cons` below states the
correspondence definitionally). -/
def serialize_key (k : Value) (s : Serializer) : Step :=
  match serializeValue k tempSerializer with
  | (temp, .ok) =>
      match s.level.level with
      | 0 => (s, .panicked "EEEErm")
      | 1 =>
          bindStep (stepOk (emit s "[")) fun s =>
          bindStep (serializeValue k s) fun s =>
          stepOk (emit { s with headers := s.headers ++ [temp.output] } "]\n")
      | 2 => stepOk { s with level := s.level.set_key temp.output, keyWrites := s.keyWrites ++ [2] }
      | 3 =>
          match s.level.key_name with
          | some kn =>
              bindStep (stepOk (emit { s with keyReads := s.keyReads ++ [3] } (kn ++ "["))) fun s =>
              bindStep (serializeValue k s) fun s =>
              stepOk (emit s "]=")
          | none => ({ s with keyReads := s.keyReads ++ [3] }, .panicked "unwrap of None key")
      | n + 4 => (s, .err (depthExceededError (n + 4)))
  | (_, .err e) => (s, .err e)
  | (_, .panicked m) => (s, .panicked m)

theorem serializeEntries_cons (k v : Value) (rest : List (Value × Value)) (s : Serializer) :
    serializeEntries ((k, v) :: rest) s =
      bindStep (serialize_key k s) fun s =>
      bindStep (serializeValue v s) fun s =>
      bindStep (stepOk (emit s "\n")) fun s =>
      serializeEntries rest s := by
  rw [serializeEntries, serialize_key]

/-- The fresh serializer built by `to_string`. -/
def initSerializer : Serializer :=
  { output := "", level := LevelTracker.new, disable_write_key := false,
    headers := [], keyWrites := [], keyReads := [] }

/-- One whole encode: `value.serialize(&mut serializer)` on a fresh
serializer, returning the final state and outcome. -/
def runEncode (v : Value) : Step := serializeValue v initSerializer

/-- Result of an entry point: the produced text, a returned error, or a
panic that unwound out of the call. -/
inductive Outcome (α : Type) where
  | ok (a : α)
  | err (e : Error)
  | panicked (msg : String)
deriving DecidableEq

/-- Models `to_string`: run a fresh serializer over the value; on success the whole
buffer is returned. -/
def to_string (v : Value) : Outcome String :=
  match runEncode v with
  | (s, .ok) => .ok s.output
  | (_, .err e) => .err e
  | (_, .panicked m) => .panicked m

/-- Models `to_writer`, which is `writer.write_all(to_string(value)?.as_bytes())`.  The sink
is modelled as the list of chunks handed to `write_all`; on an encode error
or panic the `?` / unwinding fires before any write, so the sink is
untouched. -/
def to_writer (sink : List String) (v : Value) : List String × Outcome Unit :=
  match to_string v with
  | .ok out => (sink ++ [out], .ok ())
  | .err e => (sink, .err e)
  | .panicked m => (sink, .panicked m)

/-! ## Structure-free values

`structFree v` holds when no `Value.struct` occurs anywhere inside `v`.
Structs are the one composite whose `end` does not close its level, so
struct-free values leave the nesting level (and the emitted headers) exactly
as they found them. -/

mutual

def structFree : Value → Bool
  | .bool _ => true
  | .i64 _ => true
  | .u64 _ => true
  | .char _ => true
  | .str _ => true
  | .bytes _ => true
  | .none => true
  | .some v => structFree v
  | .unit => true
  | .unitStruct _ => true
  | .unitVariant _ _ => true
  | .newtypeStruct _ v => structFree v
  | .newtypeVariant _ _ v => structFree v
  | .seq l => structFreeList l
  | .tuple l => structFreeList l
  | .tupleStruct _ l => structFreeList l
  | .tupleVariant _ _ l => structFreeList l
  | .map es => structFreeEntries es
  | .struct _ _ => false
  | .structVariant _ _ fs => structFreeFields fs

def structFreeList : List Value → Bool
  | [] => true
  | v :: rest => structFree v && structFreeList rest

def structFreeEntries : List (Value × Value) → Bool
  | [] => true
  | (k, v) :: rest => structFree k && structFree v && structFreeEntries rest

def structFreeFields : List (String × Value) → Bool
  | [] => true
  | (_, v) :: rest => structFree v && structFreeFields rest

end

/-! ## Counting level-opens

`composites v` counts every map and struct occurring anywhere in `v` — each
one performs exactly one `open_level` when it is serialized, and nothing else
opens a level.  A whole encode therefore performs at most `composites v`
opens, so when `composites v ≤ 255` the `u8` level can never wrap. -/

mutual

def composites : Value → Nat
  | .bool _ => 0
  | .i64 _ => 0
  | .u64 _ => 0
  | .char _ => 0
  | .str _ => 0
  | .bytes _ => 0
  | .none => 0
  | .some v => composites v
  | .unit => 0
  | .unitStruct _ => 0
  | .unitVariant _ _ => 0
  | .newtypeStruct _ v => composites v
  | .newtypeVariant _ _ v => composites v
  | .seq l => compositesList l
  | .tuple l => compositesList l
  | .tupleStruct _ l => compositesList l
  | .tupleVariant _ _ l => compositesList l
  | .map es => 1 + compositesEntries es
  | .struct _ fs => 1 + compositesFields fs
  | .structVariant _ _ fs => compositesFields fs

def compositesList : List Value → Nat
  | [] => 0
  | v :: rest => composites v + compositesList rest

def compositesEntries : List (Value × Value) → Nat
  | [] => 0
  | (k, v) :: rest => composites k + composites v + compositesEntries rest

def compositesFields : List (String × Value) → Nat
  | [] => 0
  | (_, v) :: rest => composites v + compositesFields rest

end

/-! ## Example values (the repository's unit tests and the claim scenarios) -/

/-- The `tests::basic` input: a root struct with one field `Desktop Entry`
holding two renamed string fields. -/
def exBasic : Value :=
  .struct "TestBasic" [("Desktop Entry",
    .struct "InnerString" [("Test", .str "test string"), ("c", .str "Another one")])]

/-- The `tests::translations` input with the entry order the test observes. -/
def exTranslations : Value :=
  .struct "TestTranslations" [("Desktop Entry",
    .struct "InnerTranslations" [("b",
      .map [(.str "es", .str "A"), (.str "en", .str "B")])])]

/-- The `tests::seq` input. -/
def exSeq : Value :=
  .struct "TestSeq" [("Desktop Entry",
    .struct "InnerSeq" [("b", .seq [.str "test", .str "string"])])]

/-- A root struct whose single depth-2 field holds the empty sequence. -/
def exSeqEmpty : Value :=
  .struct "TestSeq" [("Desktop Entry",
    .struct "InnerSeq" [("b", .seq [])])]

/-- A root struct with two fields, both holding structs. -/
def exTwoFields : Value :=
  .struct "R" [("A", .struct "IA" [("x", .str "1")]),
               ("B", .struct "IB" [("y", .str "2")])]

/-- A value nesting Map, Map, Struct, Struct: four meaningful levels. -/
def exDeep : Value :=
  .map [(.str "k1", .map [(.str "k2",
    .struct "S1" [("f1", .struct "S2" [("g1", .str "w")])])])]

/-! ## Frame lemmas for the non-recursive helpers -/

/-- The common shape of the scalar serializers: `write_pre_val`, then one
token appended. -/
def preEmit (g : String) (s : Serializer) : Step :=
  bindStep (write_pre_val s) fun s => stepOk (emit s g)

@[simp] theorem serialize_str_eq (v : String) (s : Serializer) :
    serialize_str v s = preEmit v s := rfl

@[simp] theorem serialize_bool_eq (v : Bool) (s : Serializer) :
    serialize_bool v s = preEmit (if v then "true" else "false") s := rfl

@[simp] theorem serialize_i64_eq (v : Int) (s : Serializer) :
    serialize_i64 v s = preEmit (toString v) s := rfl

@[simp] theorem serialize_u64_eq (v : Nat) (s : Serializer) :
    serialize_u64 v s = preEmit (toString v) s := rfl

@[simp] theorem serialize_unit_eq (s : Serializer) : serialize_unit s = preEmit "" s := rfl

@[simp] theorem stepOk_fst (s : Serializer) : (stepOk s).1 = s := rfl

@[simp] theorem stepOk_snd (s : Serializer) : (stepOk s).2 = .ok := rfl

@[simp] theorem emit_level (s : Serializer) (t : String) : (emit s t).level = s.level := rfl

@[simp] theorem emit_headers (s : Serializer) (t : String) : (emit s t).headers = s.headers := rfl

@[simp] theorem emit_keyWrites (s : Serializer) (t : String) : (emit s t).keyWrites = s.keyWrites := rfl

@[simp] theorem emit_keyReads (s : Serializer) (t : String) : (emit s t).keyReads = s.keyReads := rfl

@[simp] theorem emit_disable (s : Serializer) (t : String) :
    (emit s t).disable_write_key = s.disable_write_key := rfl

@[simp] theorem emit_output (s : Serializer) (t : String) : (emit s t).output = s.output ++ t := rfl

@[simp] theorem open_level_level (t : LevelTracker) :
    (t.open_level).level = (t.level + 1) % 256 := rfl

@[simp] theorem open_level_key (t : LevelTracker) : (t.open_level).key_name = t.key_name := rfl

@[simp] theorem set_key_level (t : LevelTracker) (k : String) : (t.set_key k).level = t.level := rfl

@[simp] theorem close_level_level (t : LevelTracker) :
    (t.close_level).level = (t.level + 255) % 256 := by
  unfold LevelTracker.close_level
  split <;> rfl

@[simp] theorem write_pre_val_level (s : Serializer) : ((write_pre_val s).1).level = s.level := by
  unfold write_pre_val
  split
  · split <;> rfl
  · rfl

@[simp] theorem write_pre_val_headers (s : Serializer) : ((write_pre_val s).1).headers = s.headers := by
  unfold write_pre_val
  split
  · split <;> rfl
  · rfl

@[simp] theorem write_pre_val_keyWrites (s : Serializer) :
    ((write_pre_val s).1).keyWrites = s.keyWrites := by
  unfold write_pre_val
  split
  · split <;> rfl
  · rfl

@[simp] theorem write_pre_val_disable (s : Serializer) :
    ((write_pre_val s).1).disable_write_key = s.disable_write_key := by
  unfold write_pre_val
  split
  · split <;> rfl
  · rfl

/-- When the level is not 2, `write_pre_val` does nothing at all. -/
theorem write_pre_val_not2 (s : Serializer) (h : s.level.level ≠ 2) :
    write_pre_val s = (s, .ok) := by
  unfold write_pre_val
  have hb : (s.level.level == 2) = false := by simpa using h
  simp [hb, stepOk]

/-- When key writing is disabled, `write_pre_val` does nothing at all. -/
theorem write_pre_val_disabled (s : Serializer) (h : s.disable_write_key = true) :
    write_pre_val s = (s, .ok) := by
  unfold write_pre_val
  simp [h, stepOk]

@[simp] theorem preEmit_level (g : String) (s : Serializer) : ((preEmit g s).1).level = s.level := by
  have h := write_pre_val_level s
  unfold preEmit
  rcases hw : write_pre_val s with ⟨s1, r⟩
  rw [hw] at h
  simp only at h
  cases r <;> simp [bindStep, stepOk, emit, h]

@[simp] theorem preEmit_headers (g : String) (s : Serializer) :
    ((preEmit g s).1).headers = s.headers := by
  have h := write_pre_val_headers s
  unfold preEmit
  rcases hw : write_pre_val s with ⟨s1, r⟩
  rw [hw] at h
  simp only at h
  cases r <;> simp [bindStep, stepOk, emit, h]

@[simp] theorem preEmit_keyWrites (g : String) (s : Serializer) :
    ((preEmit g s).1).keyWrites = s.keyWrites := by
  have h := write_pre_val_keyWrites s
  unfold preEmit
  rcases hw : write_pre_val s with ⟨s1, r⟩
  rw [hw] at h
  simp only at h
  cases r <;> simp [bindStep, stepOk, emit, h]

@[simp] theorem preEmit_disable (g : String) (s : Serializer) :
    ((preEmit g s).1).disable_write_key = s.disable_write_key := by
  have h := write_pre_val_disable s
  unfold preEmit
  rcases hw : write_pre_val s with ⟨s1, r⟩
  rw [hw] at h
  simp only at h
  cases r <;> simp [bindStep, stepOk, emit, h]

/-- With key writing disabled a scalar append is exact. -/
theorem preEmit_disabled (g : String) (s : Serializer) (h : s.disable_write_key = true) :
    preEmit g s = (emit s g, .ok) := by
  unfold preEmit
  rw [write_pre_val_disabled s h]
  rfl

/-- Away from level 2 a scalar append is exact. -/
theorem preEmit_not2 (g : String) (s : Serializer) (h : s.level.level ≠ 2) :
    preEmit g s = (emit s g, .ok) := by
  unfold preEmit
  rw [write_pre_val_not2 s h]
  rfl

@[simp] theorem serialize_seq_level (s : Serializer) : ((serialize_seq s).1).level = s.level := by
  have h := write_pre_val_level s
  unfold serialize_seq
  rcases hw : write_pre_val s with ⟨s1, r⟩
  rw [hw] at h
  simp only at h
  cases r <;> simp [bindStep, stepOk, h]

@[simp] theorem serialize_seq_headers (s : Serializer) : ((serialize_seq s).1).headers = s.headers := by
  have h := write_pre_val_headers s
  unfold serialize_seq
  rcases hw : write_pre_val s with ⟨s1, r⟩
  rw [hw] at h
  simp only at h
  cases r <;> simp [bindStep, stepOk, h]

@[simp] theorem serialize_seq_keyWrites (s : Serializer) :
    ((serialize_seq s).1).keyWrites = s.keyWrites := by
  have h := write_pre_val_keyWrites s
  unfold serialize_seq
  rcases hw : write_pre_val s with ⟨s1, r⟩
  rw [hw] at h
  simp only at h
  cases r <;> simp [bindStep, stepOk, h]

@[simp] theorem seqElemSep_level (s : Serializer) : (seqElemSep s).level = s.level := by
  unfold seqElemSep
  split <;> rfl

@[simp] theorem seqElemSep_headers (s : Serializer) : (seqElemSep s).headers = s.headers := by
  unfold seqElemSep
  split <;> rfl

@[simp] theorem seqElemSep_keyWrites (s : Serializer) : (seqElemSep s).keyWrites = s.keyWrites := by
  unfold seqElemSep
  split <;> rfl

@[simp] theorem seqElemSep_keyReads (s : Serializer) : (seqElemSep s).keyReads = s.keyReads := by
  unfold seqElemSep
  split <;> rfl

@[simp] theorem seqElemSep_disable (s : Serializer) :
    (seqElemSep s).disable_write_key = s.disable_write_key := by
  unfold seqElemSep
  split <;> rfl

@[simp] theorem seqEnd_level (s : Serializer) : ((seqEnd s).1).level = s.level := rfl

@[simp] theorem seqEnd_headers (s : Serializer) : ((seqEnd s).1).headers = s.headers := rfl

@[simp] theorem seqEnd_keyWrites (s : Serializer) : ((seqEnd s).1).keyWrites = s.keyWrites := rfl

@[simp] theorem seqEnd_keyReads (s : Serializer) : ((seqEnd s).1).keyReads = s.keyReads := rfl

@[simp] theorem seqEnd_snd (s : Serializer) : (seqEnd s).2 = .ok := rfl

@[simp] theorem tupleEnd_level (s : Serializer) : ((tupleEnd s).1).level = s.level := rfl

@[simp] theorem tupleEnd_headers (s : Serializer) : ((tupleEnd s).1).headers = s.headers := rfl

@[simp] theorem tupleEnd_keyWrites (s : Serializer) : ((tupleEnd s).1).keyWrites = s.keyWrites := rfl

@[simp] theorem tupleEnd_keyReads (s : Serializer) : ((tupleEnd s).1).keyReads = s.keyReads := rfl

@[simp] theorem tupleEnd_snd (s : Serializer) : (tupleEnd s).2 = .ok := rfl

/-! ## Composition lemmas for `bindStep` -/

theorem bindStep_eq_ok {x : Step} {f : Serializer → Step} {s' : Serializer}
    (h : bindStep x f = (s', .ok)) : ∃ t, x = (t, .ok) ∧ f t = (s', .ok) := by
  rcases x with ⟨t, r⟩
  cases r with
  | ok => exact ⟨t, rfl, h⟩
  | err e => simp [bindStep] at h
  | panicked m => simp [bindStep] at h

theorem bindStep_level_le {s : Serializer} {x : Step} {f : Serializer → Step}
    (hx : s.level.level ≤ (x.1).level.level)
    (hf : ∀ t, t.level.level ≤ ((f t).1).level.level) :
    s.level.level ≤ ((bindStep x f).1).level.level := by
  rcases x with ⟨t, r⟩
  cases r
  · exact le_trans hx (hf t)
  · exact hx
  · exact hx

theorem bindStep_level_eq {n : Nat} {x : Step} {f : Serializer → Step}
    (hx : (x.1).level.level = n)
    (hf : ∀ t, ((f t).1).level.level = t.level.level) :
    ((bindStep x f).1).level.level = n := by
  rcases x with ⟨t, r⟩
  cases r
  · rw [show bindStep (t, Res.ok) f = f t from rfl, hf t]; exact hx
  · exact hx
  · exact hx

/-! ## Remaining helper frames -/

theorem byteElems_frame (bs : List Nat) : ∀ s : Serializer,
    ((serializeByteElems bs s).1).level = s.level ∧
    ((serializeByteElems bs s).1).headers = s.headers ∧
    ((serializeByteElems bs s).1).keyWrites = s.keyWrites := by
  induction bs with
  | nil => intro s; exact ⟨rfl, rfl, rfl⟩
  | cons b rest ih =>
      intro s
      unfold serializeByteElems
      rcases hu : serialize_u64 b (seqElemSep s) with ⟨s1, r⟩
      have h1 : s1.level = s.level ∧ s1.headers = s.headers ∧ s1.keyWrites = s.keyWrites := by
        have e1 := preEmit_level (toString b) (seqElemSep s)
        have e2 := preEmit_headers (toString b) (seqElemSep s)
        have e3 := preEmit_keyWrites (toString b) (seqElemSep s)
        rw [show serialize_u64 b (seqElemSep s) = preEmit (toString b) (seqElemSep s) from rfl] at hu
        rw [hu] at e1 e2 e3
        simp at e1 e2 e3
        exact ⟨e1, e2, e3⟩
      cases r
      · simp only [bindStep]
        have h2 := ih s1
        exact ⟨h2.1.trans h1.1, h2.2.1.trans h1.2.1, h2.2.2.trans h1.2.2⟩
      · exact h1
      · exact h1

theorem fieldKey_level (name : String) (s : Serializer) :
    ((serialize_fieldKey name s).1).level.level = s.level.level := by
  unfold serialize_fieldKey
  split
  · rfl
  · refine bindStep_level_eq (by simp) fun t => ?_
    exact bindStep_level_eq (by simp) fun t2 => by simp
  · simp
  · split
    · refine bindStep_level_eq (by simp) fun t => ?_
      exact bindStep_level_eq (by simp) fun t2 => by simp
    · rfl
  · rfl

/-- At level 1 a struct field key emits exactly a section header and records
it in the ghost header list. -/
theorem fieldKey_at1 (name : String) (s : Serializer) (h : s.level.level = 1) :
    serialize_fieldKey name s =
      ({ s with output := s.output ++ "[" ++ name ++ "]\n", headers := s.headers ++ [name] }, .ok) := by
  unfold serialize_fieldKey
  rw [h]
  rw [show (bindStep (stepOk (emit s "[")) fun s =>
        bindStep (serialize_str name s) fun s =>
        stepOk (emit { s with headers := s.headers ++ [name] } "]\n")) =
      (bindStep (serialize_str name (emit s "[")) fun s =>
        stepOk (emit { s with headers := s.headers ++ [name] } "]\n")) from rfl]
  rw [serialize_str_eq, preEmit_not2 name (emit s "[") (by simp [h])]
  rfl

/-- At level 2 a struct field key stores the name as pending key and records
a ghost write at level 2. -/
theorem fieldKey_at2 (name : String) (s : Serializer) (h : s.level.level = 2) :
    serialize_fieldKey name s =
      ({ s with level := s.level.set_key name, keyWrites := s.keyWrites ++ [2] }, .ok) := by
  unfold serialize_fieldKey
  rw [h]
  rfl

/-- Outcomes recognized as the depth-0 defensive panic of the source. -/
def isEEEErm : Res → Bool
  | .panicked m => m == "EEEErm"
  | _ => false

theorem notE_write_pre_val (s : Serializer) : isEEEErm (write_pre_val s).2 = false := by
  unfold write_pre_val
  split
  · split <;> rfl
  · rfl

theorem bindStep_notE {x : Step} {f : Serializer → Step}
    (hx : isEEEErm x.2 = false) (hf : ∀ t, isEEEErm ((f t).2) = false) :
    isEEEErm ((bindStep x f).2) = false := by
  rcases x with ⟨t, r⟩
  cases r
  · exact hf t
  · exact hx
  · exact hx

theorem notE_preEmit (g : String) (s : Serializer) : isEEEErm (preEmit g s).2 = false := by
  unfold preEmit
  exact bindStep_notE (notE_write_pre_val s) fun t => rfl

theorem notE_serialize_seq (s : Serializer) : isEEEErm (serialize_seq s).2 = false := by
  unfold serialize_seq
  exact bindStep_notE (notE_write_pre_val s) fun t => rfl

theorem notE_byteElems (bs : List Nat) : ∀ s : Serializer,
    isEEEErm (serializeByteElems bs s).2 = false := by
  induction bs with
  | nil => intro s; rfl
  | cons b rest ih =>
      intro s
      unfold serializeByteElems
      refine bindStep_notE ?_ fun t => ih t
      rw [serialize_u64_eq]
      exact notE_preEmit (toString b) (seqElemSep s)

theorem notE_fieldKey (name : String) (s : Serializer) (h : 1 ≤ s.level.level) :
    isEEEErm (serialize_fieldKey name s).2 = false := by
  unfold serialize_fieldKey
  split
  · omega
  · refine bindStep_notE rfl fun t => ?_
    refine bindStep_notE ?_ fun t2 => rfl
    rw [serialize_str_eq]
    exact notE_preEmit name t
  · rfl
  · split
    · refine bindStep_notE rfl fun t => ?_
      refine bindStep_notE ?_ fun t2 => rfl
      rw [serialize_str_eq]
      exact notE_preEmit name t
    · rfl
  · rfl

/-- The ghost traces are well placed: every recorded `set_key` happened at
level 2 and every recorded pending-key read happened at level 2 or 3. -/
def TraceOK (s : Serializer) : Prop :=
  (∀ x ∈ s.keyWrites, x = 2) ∧ (∀ x ∈ s.keyReads, x = 2 ∨ x = 3)

theorem bindStep_trace {x : Step} {f : Serializer → Step}
    (hx : TraceOK x.1) (hf : ∀ t, TraceOK t → TraceOK ((f t).1)) :
    TraceOK ((bindStep x f).1) := by
  rcases x with ⟨t, r⟩
  cases r
  · exact hf t hx
  · exact hx
  · exact hx

theorem forall_mem_append_two {l : List Nat} (hl : ∀ x ∈ l, x = 2) :
    ∀ x ∈ l ++ [2], x = 2 := by
  intro x hx
  rcases List.mem_append.1 hx with hm | hm
  · exact hl x hm
  · simpa using hm

theorem forall_mem_append_or {l : List Nat} {v : Nat}
    (hl : ∀ x ∈ l, x = 2 ∨ x = 3) (hv : v = 2 ∨ v = 3) :
    ∀ x ∈ l ++ [v], x = 2 ∨ x = 3 := by
  intro x hx
  rcases List.mem_append.1 hx with hm | hm
  · exact hl x hm
  · rw [List.mem_singleton.1 hm]; exact hv

theorem trace_write_pre_val (s : Serializer) (h : TraceOK s) : TraceOK (write_pre_val s).1 := by
  obtain ⟨h1, h2⟩ := h
  unfold write_pre_val
  split
  · split
    · exact ⟨h1, forall_mem_append_or h2 (Or.inl rfl)⟩
    · exact ⟨h1, forall_mem_append_or h2 (Or.inl rfl)⟩
  · exact ⟨h1, h2⟩

theorem trace_seqElemSep (s : Serializer) (h : TraceOK s) : TraceOK (seqElemSep s) := by
  unfold seqElemSep
  split
  · exact h
  · exact h

theorem trace_preEmit (g : String) (s : Serializer) (h : TraceOK s) : TraceOK (preEmit g s).1 := by
  unfold preEmit
  exact bindStep_trace (trace_write_pre_val s h) fun t ht => ht

theorem trace_serialize_seq (s : Serializer) (h : TraceOK s) : TraceOK (serialize_seq s).1 := by
  unfold serialize_seq
  exact bindStep_trace (trace_write_pre_val s h) fun t ht => ht

theorem trace_byteElems (bs : List Nat) : ∀ s : Serializer,
    TraceOK s → TraceOK (serializeByteElems bs s).1 := by
  induction bs with
  | nil => intro s h; exact h
  | cons b rest ih =>
      intro s h
      unfold serializeByteElems
      refine bindStep_trace ?_ fun t ht => ih t ht
      rw [serialize_u64_eq]
      exact trace_preEmit (toString b) (seqElemSep s) (trace_seqElemSep s h)

theorem trace_fieldKey (name : String) (s : Serializer) (h : TraceOK s) :
    TraceOK (serialize_fieldKey name s).1 := by
  obtain ⟨h1, h2⟩ := h
  unfold serialize_fieldKey
  split
  · exact ⟨h1, h2⟩
  · refine bindStep_trace ⟨h1, h2⟩ fun t ht => ?_
    exact bindStep_trace (trace_preEmit name t ht) fun t2 ht2 => ht2
  · exact ⟨forall_mem_append_two h1, h2⟩
  · split
    · refine bindStep_trace ⟨h1, forall_mem_append_or h2 (Or.inr rfl)⟩ fun t ht => ?_
      exact bindStep_trace (trace_preEmit name t ht) fun t2 ht2 => ht2
    · exact ⟨h1, forall_mem_append_or h2 (Or.inr rfl)⟩
  · exact ⟨h1, h2⟩

/-! ## Level bounds under the wrapping `u8` tracker

Maps close exactly the level they opened, structs close nothing, and no
other shape touches the tracker.  Every `open_level` belongs to a map or a
struct, so a serialization step performs at most `composites v` opens.  As
long as the starting level plus that budget stays below 256 the `u8` never
wraps, and the final level lies between the starting level and the starting
level plus the budget.  (Without the budget the bounds are false: 255 net
opens wrap the level back to 0.) -/

theorem bound_into_self (k : Value)
    (hk : ∀ t : Serializer, t.level.level + composites k ≤ 255 →
      t.level.level ≤ ((serializeValue k t).1).level.level ∧
      ((serializeValue k t).1).level.level ≤ t.level.level + composites k)
    (fin : Serializer → Step) (hfin : ∀ t, ((fin t).1).level.level = t.level.level)
    (s0 : Serializer) (h : s0.level.level + composites k ≤ 255) :
    s0.level.level ≤ ((bindStep (serializeValue k s0) fin).1).level.level ∧
    ((bindStep (serializeValue k s0) fin).1).level.level ≤ s0.level.level + composites k := by
  rcases h1 : serializeValue k s0 with ⟨t1, r1⟩
  have hb := hk s0 h
  rw [h1] at hb
  have hb1 : s0.level.level ≤ t1.level.level := hb.1
  have hb2 : t1.level.level ≤ s0.level.level + composites k := hb.2
  cases r1
  · simp only [bindStep]
    have e := hfin t1
    exact ⟨by omega, by omega⟩
  · exact ⟨hb1, hb2⟩
  · exact ⟨hb1, hb2⟩

theorem serialize_key_bound (k : Value)
    (hk : ∀ t : Serializer, t.level.level + composites k ≤ 255 →
      t.level.level ≤ ((serializeValue k t).1).level.level ∧
      ((serializeValue k t).1).level.level ≤ t.level.level + composites k)
    (s : Serializer) (h : s.level.level + composites k ≤ 255) :
    s.level.level ≤ ((serialize_key k s).1).level.level ∧
    ((serialize_key k s).1).level.level ≤ s.level.level + composites k := by
  unfold serialize_key
  split
  · split
    · exact ⟨Nat.le_refl _, Nat.le_add_right _ _⟩
    · simp only [bindStep, stepOk]
      refine bound_into_self k hk _ (fun t => ?_) (emit s "[") h
      rfl
    · exact ⟨Nat.le_refl _, Nat.le_add_right _ _⟩
    · split
      · simp only [bindStep, stepOk]
        rename_i kn hkn
        refine bound_into_self k hk _ (fun t => ?_)
          (emit { s with keyReads := s.keyReads ++ [3] } (kn ++ "[")) h
        rfl
      · exact ⟨Nat.le_refl _, Nat.le_add_right _ _⟩
    · exact ⟨Nat.le_refl _, Nat.le_add_right _ _⟩
  · exact ⟨Nat.le_refl _, Nat.le_add_right _ _⟩
  · exact ⟨Nat.le_refl _, Nat.le_add_right _ _⟩

theorem bound_seqLike (items : List Value) (fin : Serializer → Step)
    (hL : ∀ t : Serializer, t.level.level + compositesList items ≤ 255 →
      t.level.level ≤ ((serializeElems items t).1).level.level ∧
      ((serializeElems items t).1).level.level ≤ t.level.level + compositesList items)
    (hfin : ∀ t, ((fin t).1).level = t.level)
    (s : Serializer) (h : s.level.level + compositesList items ≤ 255) :
    s.level.level ≤ ((bindStep (serialize_seq s) fun t => bindStep (serializeElems items t) fin).1).level.level ∧
    ((bindStep (serialize_seq s) fun t => bindStep (serializeElems items t) fin).1).level.level
      ≤ s.level.level + compositesList items := by
  rcases h1 : serialize_seq s with ⟨t1, r1⟩
  have e1n : t1.level.level = s.level.level := by
    have hq := serialize_seq_level s
    rw [h1] at hq
    exact congrArg LevelTracker.level hq
  cases r1
  · simp only [bindStep]
    rcases h2 : serializeElems items t1 with ⟨t2, r2⟩
    have hb := hL t1 (by omega)
    rw [h2] at hb
    have hb1 : t1.level.level ≤ t2.level.level := hb.1
    have hb2 : t2.level.level ≤ t1.level.level + compositesList items := hb.2
    cases r2
    · simp only [bindStep]
      have e3n := congrArg LevelTracker.level (hfin t2)
      exact ⟨by omega, by omega⟩
    · exact ⟨show s.level.level ≤ t2.level.level by omega,
             show t2.level.level ≤ s.level.level + compositesList items by omega⟩
    · exact ⟨show s.level.level ≤ t2.level.level by omega,
             show t2.level.level ≤ s.level.level + compositesList items by omega⟩
  · exact ⟨show s.level.level ≤ t1.level.level by omega,
           show t1.level.level ≤ s.level.level + compositesList items by omega⟩
  · exact ⟨show s.level.level ≤ t1.level.level by omega,
           show t1.level.level ≤ s.level.level + compositesList items by omega⟩

mutual

theorem boundV (v : Value) : ∀ s : Serializer, s.level.level + composites v ≤ 255 →
    s.level.level ≤ ((serializeValue v s).1).level.level ∧
    ((serializeValue v s).1).level.level ≤ s.level.level + composites v :=
  match v with
  | .bool b => fun s _ => by
      have e : ((serializeValue (Value.bool b) s).1).level.level = s.level.level := by
        simp [serializeValue]
      exact ⟨by omega, by omega⟩
  | .i64 n => fun s _ => by
      have e : ((serializeValue (Value.i64 n) s).1).level.level = s.level.level := by
        simp [serializeValue]
      exact ⟨by omega, by omega⟩
  | .u64 n => fun s _ => by
      have e : ((serializeValue (Value.u64 n) s).1).level.level = s.level.level := by
        simp [serializeValue]
      exact ⟨by omega, by omega⟩
  | .char c => fun s _ => by
      have e : ((serializeValue (Value.char c) s).1).level.level = s.level.level := by
        simp [serializeValue]
      exact ⟨by omega, by omega⟩
  | .str v => fun s _ => by
      have e : ((serializeValue (Value.str v) s).1).level.level = s.level.level := by
        simp [serializeValue]
      exact ⟨by omega, by omega⟩
  | .bytes bs => fun s _ => by
      have e : ((serializeValue (Value.bytes bs) s).1).level.level = s.level.level := by
        simp only [serializeValue]
        refine bindStep_level_eq (by simp) fun t => ?_
        refine bindStep_level_eq (by simp) fun t2 => ?_
        exact bindStep_level_eq (congrArg LevelTracker.level (byteElems_frame bs t2).1)
          fun t3 => by simp
      exact ⟨by omega, by omega⟩
  | .none => fun s _ => by
      have e : ((serializeValue Value.none s).1).level.level = s.level.level := by
        simp [serializeValue]
      exact ⟨by omega, by omega⟩
  | .some v => fun s h => boundV v s h
  | .unit => fun s _ => by
      have e : ((serializeValue Value.unit s).1).level.level = s.level.level := by
        simp [serializeValue]
      exact ⟨by omega, by omega⟩
  | .unitStruct n1 => fun s _ => by
      have e : ((serializeValue (Value.unitStruct n1) s).1).level.level = s.level.level := by
        simp [serializeValue]
      exact ⟨by omega, by omega⟩
  | .unitVariant n1 variant => fun s _ => by
      have e : ((serializeValue (Value.unitVariant n1 variant) s).1).level.level = s.level.level := by
        simp [serializeValue]
      exact ⟨by omega, by omega⟩
  | .newtypeStruct _ v => fun s h => boundV v s h
  | .newtypeVariant n1 variant v => fun s h => by
      have hc : composites (Value.newtypeVariant n1 variant v) = composites v := rfl
      simp only [serializeValue]
      rcases h1 : write_pre_val s with ⟨t1, r1⟩
      have e1n : t1.level.level = s.level.level := by
        have hq := write_pre_val_level s
        rw [h1] at hq
        exact congrArg LevelTracker.level hq
      cases r1
      · simp only [bindStep]
        rcases h2 : serialize_str variant t1 with ⟨t2, r2⟩
        have e2n : t2.level.level = t1.level.level := by
          have hq := preEmit_level variant t1
          rw [serialize_str_eq] at h2
          rw [h2] at hq
          exact congrArg LevelTracker.level hq
        cases r2
        · simp only [bindStep, stepOk]
          rcases h3 : serializeValue v (emit t2 "=") with ⟨t3, r3⟩
          have hb := boundV v (emit t2 "=")
            (by show t2.level.level + composites v ≤ 255; omega)
          rw [h3] at hb
          have hb1 : t2.level.level ≤ t3.level.level := hb.1
          have hb2 : t3.level.level ≤ t2.level.level + composites v := hb.2
          exact ⟨show s.level.level ≤ t3.level.level by omega,
                 show t3.level.level ≤ s.level.level + composites (Value.newtypeVariant n1 variant v) by omega⟩
        · exact ⟨show s.level.level ≤ t2.level.level by omega,
                 show t2.level.level ≤ s.level.level + composites (Value.newtypeVariant n1 variant v) by omega⟩
        · exact ⟨show s.level.level ≤ t2.level.level by omega,
                 show t2.level.level ≤ s.level.level + composites (Value.newtypeVariant n1 variant v) by omega⟩
      · exact ⟨show s.level.level ≤ t1.level.level by omega,
               show t1.level.level ≤ s.level.level + composites (Value.newtypeVariant n1 variant v) by omega⟩
      · exact ⟨show s.level.level ≤ t1.level.level by omega,
               show t1.level.level ≤ s.level.level + composites (Value.newtypeVariant n1 variant v) by omega⟩
  | .seq items => fun s h =>
      bound_seqLike items seqEnd (fun t ht => boundL items t ht) (fun t => rfl) s h
  | .tuple items => fun s h =>
      bound_seqLike items tupleEnd (fun t ht => boundL items t ht) (fun t => rfl) s h
  | .tupleStruct _ items => fun s h =>
      bound_seqLike items tupleEnd (fun t ht => boundL items t ht) (fun t => rfl) s h
  | .tupleVariant n1 variant items => fun s h => by
      have hc : composites (Value.tupleVariant n1 variant items) = compositesList items := rfl
      simp only [serializeValue]
      rcases h1 : write_pre_val s with ⟨t1, r1⟩
      have e1n : t1.level.level = s.level.level := by
        have hq := write_pre_val_level s
        rw [h1] at hq
        exact congrArg LevelTracker.level hq
      cases r1
      · simp only [bindStep, stepOk]
        rcases h3 : serialize_str variant (emit t1 "\x7b") with ⟨t3, r3⟩
        have e3n : t3.level.level = t1.level.level := by
          have hq := preEmit_level variant (emit t1 "\x7b")
          rw [serialize_str_eq] at h3
          rw [h3] at hq
          exact congrArg LevelTracker.level hq
        cases r3
        · simp only [bindStep, stepOk]
          rcases h5 : serializeElems items (emit t3 ":[") with ⟨t5, r5⟩
          have hb := boundL items (emit t3 ":[")
            (by show t3.level.level + compositesList items ≤ 255; omega)
          rw [h5] at hb
          have hb1 : t3.level.level ≤ t5.level.level := hb.1
          have hb2 : t5.level.level ≤ t3.level.level + compositesList items := hb.2
          cases r5
          · simp only [bindStep]
            exact ⟨show s.level.level ≤ t5.level.level by omega,
                   show t5.level.level ≤ s.level.level + composites (Value.tupleVariant n1 variant items) by omega⟩
          · exact ⟨show s.level.level ≤ t5.level.level by omega,
                   show t5.level.level ≤ s.level.level + composites (Value.tupleVariant n1 variant items) by omega⟩
          · exact ⟨show s.level.level ≤ t5.level.level by omega,
                   show t5.level.level ≤ s.level.level + composites (Value.tupleVariant n1 variant items) by omega⟩
        · exact ⟨show s.level.level ≤ t3.level.level by omega,
                 show t3.level.level ≤ s.level.level + composites (Value.tupleVariant n1 variant items) by omega⟩
        · exact ⟨show s.level.level ≤ t3.level.level by omega,
                 show t3.level.level ≤ s.level.level + composites (Value.tupleVariant n1 variant items) by omega⟩
      · exact ⟨show s.level.level ≤ t1.level.level by omega,
               show t1.level.level ≤ s.level.level + composites (Value.tupleVariant n1 variant items) by omega⟩
      · exact ⟨show s.level.level ≤ t1.level.level by omega,
               show t1.level.level ≤ s.level.level + composites (Value.tupleVariant n1 variant items) by omega⟩
  | .map entries => fun s h => by
      have hc : composites (Value.map entries) = 1 + compositesEntries entries := rfl
      simp only [serializeValue, bindStep, stepOk]
      rcases he : serializeEntries entries { s with level := s.level.open_level } with ⟨t2, r⟩
      have hopen : ({ s with level := s.level.open_level } : Serializer).level.level
          = s.level.level + 1 := by
        show (s.level.open_level).level = s.level.level + 1
        rw [open_level_level]
        omega
      have hb := boundE entries { s with level := s.level.open_level } (by rw [hopen]; omega)
      rw [he, hopen] at hb
      have hb1 : s.level.level + 1 ≤ t2.level.level := hb.1
      have hb2 : t2.level.level ≤ s.level.level + 1 + compositesEntries entries := hb.2
      cases r
      · simp only [bindStep, stepOk]
        constructor
        · show s.level.level ≤ (t2.level.close_level).level
          rw [close_level_level]
          omega
        · show (t2.level.close_level).level ≤ s.level.level + composites (Value.map entries)
          rw [close_level_level]
          omega
      · exact ⟨show s.level.level ≤ t2.level.level by omega,
               show t2.level.level ≤ s.level.level + composites (Value.map entries) by omega⟩
      · exact ⟨show s.level.level ≤ t2.level.level by omega,
               show t2.level.level ≤ s.level.level + composites (Value.map entries) by omega⟩
  | .struct n1 fields => fun s h => by
      have hc : composites (Value.struct n1 fields) = 1 + compositesFields fields := rfl
      simp only [serializeValue, bindStep, stepOk]
      have hopen : ({ s with level := s.level.open_level } : Serializer).level.level
          = s.level.level + 1 := by
        show (s.level.open_level).level = s.level.level + 1
        rw [open_level_level]
        omega
      have hb := boundF fields { s with level := s.level.open_level } (by rw [hopen]; omega)
      rw [hopen] at hb
      exact ⟨by omega, by omega⟩
  | .structVariant n1 variant fields => fun s h => by
      have hc : composites (Value.structVariant n1 variant fields) = compositesFields fields := rfl
      simp only [serializeValue, bindStep, stepOk]
      rcases h2 : serialize_str variant (emit s "\x7b") with ⟨t2, r2⟩
      have e2n : t2.level.level = s.level.level := by
        have hq := preEmit_level variant (emit s "\x7b")
        rw [serialize_str_eq] at h2
        rw [h2] at hq
        exact congrArg LevelTracker.level hq
      cases r2
      · simp only [bindStep, stepOk]
        rcases h4 : serializeSVFields fields (emit t2 ":\x7b") with ⟨t4, r4⟩
        have hb := boundSV fields (emit t2 ":\x7b")
          (by show t2.level.level + compositesFields fields ≤ 255; omega)
        rw [h4] at hb
        have hb1 : t2.level.level ≤ t4.level.level := hb.1
        have hb2 : t4.level.level ≤ t2.level.level + compositesFields fields := hb.2
        cases r4
        · simp only [bindStep, stepOk]
          exact ⟨show s.level.level ≤ t4.level.level by omega,
                 show t4.level.level ≤ s.level.level + composites (Value.structVariant n1 variant fields) by omega⟩
        · exact ⟨show s.level.level ≤ t4.level.level by omega,
                 show t4.level.level ≤ s.level.level + composites (Value.structVariant n1 variant fields) by omega⟩
        · exact ⟨show s.level.level ≤ t4.level.level by omega,
                 show t4.level.level ≤ s.level.level + composites (Value.structVariant n1 variant fields) by omega⟩
      · exact ⟨show s.level.level ≤ t2.level.level by omega,
               show t2.level.level ≤ s.level.level + composites (Value.structVariant n1 variant fields) by omega⟩
      · exact ⟨show s.level.level ≤ t2.level.level by omega,
               show t2.level.level ≤ s.level.level + composites (Value.structVariant n1 variant fields) by omega⟩

theorem boundL (l : List Value) : ∀ s : Serializer, s.level.level + compositesList l ≤ 255 →
    s.level.level ≤ ((serializeElems l s).1).level.level ∧
    ((serializeElems l s).1).level.level ≤ s.level.level + compositesList l :=
  match l with
  | [] => fun s _ => ⟨Nat.le_refl _, Nat.le_add_right _ _⟩
  | v :: rest => fun s h => by
      have hc : compositesList (v :: rest) = composites v + compositesList rest := rfl
      simp only [serializeElems]
      rcases h1 : serializeValue v (seqElemSep s) with ⟨t1, r1⟩
      have hsn : (seqElemSep s).level.level = s.level.level := by
        simp only [seqElemSep_level]
      have hb := boundV v (seqElemSep s) (by rw [hsn]; omega)
      rw [h1, hsn] at hb
      have hb1 : s.level.level ≤ t1.level.level := hb.1
      have hb2 : t1.level.level ≤ s.level.level + composites v := hb.2
      cases r1
      · simp only [bindStep]
        have hr := boundL rest t1 (by omega)
        have hr1 : t1.level.level ≤ ((serializeElems rest t1).1).level.level := hr.1
        have hr2 : ((serializeElems rest t1).1).level.level
            ≤ t1.level.level + compositesList rest := hr.2
        exact ⟨by omega, by omega⟩
      · exact ⟨show s.level.level ≤ t1.level.level by omega,
               show t1.level.level ≤ s.level.level + compositesList (v :: rest) by omega⟩
      · exact ⟨show s.level.level ≤ t1.level.level by omega,
               show t1.level.level ≤ s.level.level + compositesList (v :: rest) by omega⟩

theorem boundE (es : List (Value × Value)) : ∀ s : Serializer,
    s.level.level + compositesEntries es ≤ 255 →
    s.level.level ≤ ((serializeEntries es s).1).level.level ∧
    ((serializeEntries es s).1).level.level ≤ s.level.level + compositesEntries es :=
  match es with
  | [] => fun s _ => ⟨Nat.le_refl _, Nat.le_add_right _ _⟩
  | (k, v) :: rest => fun s h => by
      have hc : compositesEntries ((k, v) :: rest)
          = composites k + composites v + compositesEntries rest := rfl
      rw [serializeEntries_cons]
      rcases h1 : serialize_key k s with ⟨t1, r1⟩
      have hkb := serialize_key_bound k (fun t ht => boundV k t ht) s (by omega)
      rw [h1] at hkb
      have hk1 : s.level.level ≤ t1.level.level := hkb.1
      have hk2 : t1.level.level ≤ s.level.level + composites k := hkb.2
      cases r1
      · simp only [bindStep]
        rcases h2 : serializeValue v t1 with ⟨t2, r2⟩
        have hvb := boundV v t1 (by omega)
        rw [h2] at hvb
        have hv1 : t1.level.level ≤ t2.level.level := hvb.1
        have hv2 : t2.level.level ≤ t1.level.level + composites v := hvb.2
        cases r2
        · simp only [bindStep, stepOk]
          have hr := boundE rest (emit t2 "\n")
            (by show t2.level.level + compositesEntries rest ≤ 255; omega)
          have hr1 : t2.level.level ≤ ((serializeEntries rest (emit t2 "\n")).1).level.level := hr.1
          have hr2 : ((serializeEntries rest (emit t2 "\n")).1).level.level
              ≤ t2.level.level + compositesEntries rest := hr.2
          exact ⟨by omega, by omega⟩
        · exact ⟨show s.level.level ≤ t2.level.level by omega,
                 show t2.level.level ≤ s.level.level + compositesEntries ((k, v) :: rest) by omega⟩
        · exact ⟨show s.level.level ≤ t2.level.level by omega,
                 show t2.level.level ≤ s.level.level + compositesEntries ((k, v) :: rest) by omega⟩
      · exact ⟨show s.level.level ≤ t1.level.level by omega,
               show t1.level.level ≤ s.level.level + compositesEntries ((k, v) :: rest) by omega⟩
      · exact ⟨show s.level.level ≤ t1.level.level by omega,
               show t1.level.level ≤ s.level.level + compositesEntries ((k, v) :: rest) by omega⟩

theorem boundF (fs : List (String × Value)) : ∀ s : Serializer,
    s.level.level + compositesFields fs ≤ 255 →
    s.level.level ≤ ((serializeFields fs s).1).level.level ∧
    ((serializeFields fs s).1).level.level ≤ s.level.level + compositesFields fs :=
  match fs with
  | [] => fun s _ => ⟨Nat.le_refl _, Nat.le_add_right _ _⟩
  | (name, v) :: rest => fun s h => by
      have hc : compositesFields ((name, v) :: rest)
          = composites v + compositesFields rest := rfl
      simp only [serializeFields]
      rcases h1 : serialize_fieldKey name s with ⟨t1, r1⟩
      have e1 : t1.level.level = s.level.level := by
        have hq := fieldKey_level name s
        rw [h1] at hq
        exact hq
      cases r1
      · simp only [bindStep]
        rcases h2 : serializeValue v t1 with ⟨t2, r2⟩
        have hvb := boundV v t1 (by omega)
        rw [h2] at hvb
        have hv1 : t1.level.level ≤ t2.level.level := hvb.1
        have hv2 : t2.level.level ≤ t1.level.level + composites v := hvb.2
        cases r2
        · simp only [bindStep, stepOk]
          have hr := boundF rest (emit t2 "\n")
            (by show t2.level.level + compositesFields rest ≤ 255; omega)
          have hr1 : t2.level.level ≤ ((serializeFields rest (emit t2 "\n")).1).level.level := hr.1
          have hr2 : ((serializeFields rest (emit t2 "\n")).1).level.level
              ≤ t2.level.level + compositesFields rest := hr.2
          exact ⟨by omega, by omega⟩
        · exact ⟨show s.level.level ≤ t2.level.level by omega,
                 show t2.level.level ≤ s.level.level + compositesFields ((name, v) :: rest) by omega⟩
        · exact ⟨show s.level.level ≤ t2.level.level by omega,
                 show t2.level.level ≤ s.level.level + compositesFields ((name, v) :: rest) by omega⟩
      · exact ⟨show s.level.level ≤ t1.level.level by omega,
               show t1.level.level ≤ s.level.level + compositesFields ((name, v) :: rest) by omega⟩
      · exact ⟨show s.level.level ≤ t1.level.level by omega,
               show t1.level.level ≤ s.level.level + compositesFields ((name, v) :: rest) by omega⟩

theorem boundSV (fs : List (String × Value)) : ∀ s : Serializer,
    s.level.level + compositesFields fs ≤ 255 →
    s.level.level ≤ ((serializeSVFields fs s).1).level.level ∧
    ((serializeSVFields fs s).1).level.level ≤ s.level.level + compositesFields fs :=
  match fs with
  | [] => fun s _ => ⟨Nat.le_refl _, Nat.le_add_right _ _⟩
  | (name, v) :: rest => fun s h => by
      have hc : compositesFields ((name, v) :: rest)
          = composites v + compositesFields rest := rfl
      simp only [serializeSVFields]
      rcases h1 : serialize_str name s with ⟨t1, r1⟩
      have e1 : t1.level.level = s.level.level := by
        have hq := preEmit_level name s
        rw [serialize_str_eq] at h1
        rw [h1] at hq
        exact congrArg LevelTracker.level hq
      cases r1
      · simp only [bindStep, stepOk]
        rcases h2 : serializeValue v (emit t1 ":") with ⟨t2, r2⟩
        have hvb := boundV v (emit t1 ":")
          (by show t1.level.level + composites v ≤ 255; omega)
        rw [h2] at hvb
        have hv1 : t1.level.level ≤ t2.level.level := hvb.1
        have hv2 : t2.level.level ≤ t1.level.level + composites v := hvb.2
        cases r2
        · simp only [bindStep]
          have hr := boundSV rest t2 (by omega)
          have hr1 : t2.level.level ≤ ((serializeSVFields rest t2).1).level.level := hr.1
          have hr2 : ((serializeSVFields rest t2).1).level.level
              ≤ t2.level.level + compositesFields rest := hr.2
          exact ⟨by omega, by omega⟩
        · exact ⟨show s.level.level ≤ t2.level.level by omega,
                 show t2.level.level ≤ s.level.level + compositesFields ((name, v) :: rest) by omega⟩
        · exact ⟨show s.level.level ≤ t2.level.level by omega,
                 show t2.level.level ≤ s.level.level + compositesFields ((name, v) :: rest) by omega⟩
      · exact ⟨show s.level.level ≤ t1.level.level by omega,
               show t1.level.level ≤ s.level.level + compositesFields ((name, v) :: rest) by omega⟩
      · exact ⟨show s.level.level ≤ t1.level.level by omega,
               show t1.level.level ≤ s.level.level + compositesFields ((name, v) :: rest) by omega⟩

end

/-! ## The depth-0 defensive panic is unreachable while the level cannot wrap

Keys and fields are only ever serialized right after their composite opened a
level.  As long as the remaining open budget keeps the `u8` level from
wrapping (`composites` within 255 of the current level), the level seen by
every key/field dispatch stays at 1 or above, so the source's
`panic!("EEEErm")` arm (level 0) cannot fire.  (With enough nested opens the
wrap makes the arm reachable; `claim_C9_counterexample` below exhibits it.) -/

theorem notE_into_self (k : Value)
    (hkE : ∀ t : Serializer, t.level.level + composites k ≤ 255 →
      isEEEErm ((serializeValue k t).2) = false)
    (fin : Serializer → Step) (hfin : ∀ t, isEEEErm ((fin t).2) = false)
    (s0 : Serializer) (h : s0.level.level + composites k ≤ 255) :
    isEEEErm ((bindStep (serializeValue k s0) fin).2) = false := by
  rcases h1 : serializeValue k s0 with ⟨t1, r1⟩
  have hE := hkE s0 h
  rw [h1] at hE
  cases r1
  · simp only [bindStep]
    exact hfin t1
  · exact hE
  · exact hE

theorem serialize_key_notE (k : Value)
    (hkE : ∀ t : Serializer, t.level.level + composites k ≤ 255 →
      isEEEErm ((serializeValue k t).2) = false)
    (s : Serializer) (h1 : 1 ≤ s.level.level) (hb : s.level.level + composites k ≤ 255) :
    isEEEErm (serialize_key k s).2 = false := by
  unfold serialize_key
  split
  · split
    · omega
    · simp only [bindStep, stepOk]
      refine notE_into_self k hkE _ (fun t => ?_) (emit s "[") hb
      rfl
    · rfl
    · split
      · simp only [bindStep, stepOk]
        refine notE_into_self k hkE _ (fun t => ?_) _ hb
        rfl
      · rfl
    · rfl
  · rfl
  · rename_i temp m heq
    have := hkE tempSerializer (by show 0 + composites k ≤ 255; omega)
    rw [heq] at this
    exact this

mutual

theorem notEV (v : Value) : ∀ s : Serializer, s.level.level + composites v ≤ 255 →
    isEEEErm ((serializeValue v s).2) = false :=
  match v with
  | .bool b => fun s _ => by
      simp only [serializeValue, serialize_bool_eq]
      exact notE_preEmit _ s
  | .i64 n => fun s _ => by
      simp only [serializeValue, serialize_i64_eq]
      exact notE_preEmit _ s
  | .u64 n => fun s _ => by
      simp only [serializeValue, serialize_u64_eq]
      exact notE_preEmit _ s
  | .char c => fun s _ => by
      simp only [serializeValue, serialize_str_eq]
      exact notE_preEmit _ s
  | .str v => fun s _ => by
      simp only [serializeValue, serialize_str_eq]
      exact notE_preEmit _ s
  | .bytes bs => fun s _ => by
      simp only [serializeValue]
      refine bindStep_notE (notE_write_pre_val s) fun t => ?_
      refine bindStep_notE (notE_serialize_seq _) fun t2 => ?_
      exact bindStep_notE (notE_byteElems bs t2) fun t3 => rfl
  | .none => fun s _ => by
      simp only [serializeValue, serialize_unit_eq]
      exact notE_preEmit _ s
  | .some v => fun s h => notEV v s h
  | .unit => fun s _ => by
      simp only [serializeValue, serialize_unit_eq]
      exact notE_preEmit _ s
  | .unitStruct _ => fun s _ => by
      simp only [serializeValue, serialize_unit_eq]
      exact notE_preEmit _ s
  | .unitVariant _ variant => fun s _ => by
      simp only [serializeValue, serialize_str_eq]
      exact notE_preEmit _ s
  | .newtypeStruct _ v => fun s h => notEV v s h
  | .newtypeVariant n1 variant v => fun s h => by
      have hc : composites (Value.newtypeVariant n1 variant v) = composites v := rfl
      simp only [serializeValue]
      rcases h1 : write_pre_val s with ⟨t1, r1⟩
      have hE1 : isEEEErm r1 = false := by
        have hq := notE_write_pre_val s
        rw [h1] at hq
        exact hq
      have e1 : t1.level.level = s.level.level := by
        have hq := write_pre_val_level s
        rw [h1] at hq
        exact congrArg LevelTracker.level hq
      cases r1
      · simp only [bindStep]
        rcases h2 : serialize_str variant t1 with ⟨t2, r2⟩
        have hE2 : isEEEErm r2 = false := by
          have hq := notE_preEmit variant t1
          rw [serialize_str_eq] at h2
          rw [h2] at hq
          exact hq
        have e2 : t2.level.level = t1.level.level := by
          have hq := preEmit_level variant t1
          rw [serialize_str_eq] at h2
          rw [h2] at hq
          exact congrArg LevelTracker.level hq
        cases r2
        · simp only [bindStep, stepOk]
          exact notEV v (emit t2 "=") (by show t2.level.level + composites v ≤ 255; omega)
        · exact hE2
        · exact hE2
      · exact hE1
      · exact hE1
  | .seq items => fun s h => by
      have hc : composites (Value.seq items) = compositesList items := rfl
      simp only [serializeValue]
      rcases h1 : serialize_seq s with ⟨t1, r1⟩
      have hE1 : isEEEErm r1 = false := by
        have hq := notE_serialize_seq s
        rw [h1] at hq
        exact hq
      have e1 : t1.level.level = s.level.level := by
        have hq := serialize_seq_level s
        rw [h1] at hq
        exact congrArg LevelTracker.level hq
      cases r1
      · simp only [bindStep]
        rcases h2 : serializeElems items t1 with ⟨t2, r2⟩
        have hE2 : isEEEErm r2 = false := by
          have hq := notEL items t1 (by omega)
          rw [h2] at hq
          exact hq
        cases r2
        · rfl
        · exact hE2
        · exact hE2
      · exact hE1
      · exact hE1
  | .tuple items => fun s h => by
      have hc : composites (Value.tuple items) = compositesList items := rfl
      simp only [serializeValue]
      rcases h1 : serialize_seq s with ⟨t1, r1⟩
      have hE1 : isEEEErm r1 = false := by
        have hq := notE_serialize_seq s
        rw [h1] at hq
        exact hq
      have e1 : t1.level.level = s.level.level := by
        have hq := serialize_seq_level s
        rw [h1] at hq
        exact congrArg LevelTracker.level hq
      cases r1
      · simp only [bindStep]
        rcases h2 : serializeElems items t1 with ⟨t2, r2⟩
        have hE2 : isEEEErm r2 = false := by
          have hq := notEL items t1 (by omega)
          rw [h2] at hq
          exact hq
        cases r2
        · rfl
        · exact hE2
        · exact hE2
      · exact hE1
      · exact hE1
  | .tupleStruct n1 items => fun s h => by
      have hc : composites (Value.tupleStruct n1 items) = compositesList items := rfl
      simp only [serializeValue]
      rcases h1 : serialize_seq s with ⟨t1, r1⟩
      have hE1 : isEEEErm r1 = false := by
        have hq := notE_serialize_seq s
        rw [h1] at hq
        exact hq
      have e1 : t1.level.level = s.level.level := by
        have hq := serialize_seq_level s
        rw [h1] at hq
        exact congrArg LevelTracker.level hq
      cases r1
      · simp only [bindStep]
        rcases h2 : serializeElems items t1 with ⟨t2, r2⟩
        have hE2 : isEEEErm r2 = false := by
          have hq := notEL items t1 (by omega)
          rw [h2] at hq
          exact hq
        cases r2
        · rfl
        · exact hE2
        · exact hE2
      · exact hE1
      · exact hE1
  | .tupleVariant n1 variant items => fun s h => by
      have hc : composites (Value.tupleVariant n1 variant items) = compositesList items := rfl
      simp only [serializeValue]
      rcases h1 : write_pre_val s with ⟨t1, r1⟩
      have hE1 : isEEEErm r1 = false := by
        have hq := notE_write_pre_val s
        rw [h1] at hq
        exact hq
      have e1 : t1.level.level = s.level.level := by
        have hq := write_pre_val_level s
        rw [h1] at hq
        exact congrArg LevelTracker.level hq
      cases r1
      · simp only [bindStep, stepOk]
        rcases h2 : serialize_str variant (emit t1 "\x7b") with ⟨t2, r2⟩
        have hE2 : isEEEErm r2 = false := by
          have hq := notE_preEmit variant (emit t1 "\x7b")
          rw [serialize_str_eq] at h2
          rw [h2] at hq
          exact hq
        have e2 : t2.level.level = t1.level.level := by
          have hq := preEmit_level variant (emit t1 "\x7b")
          rw [serialize_str_eq] at h2
          rw [h2] at hq
          exact congrArg LevelTracker.level hq
        cases r2
        · simp only [bindStep, stepOk]
          rcases h3 : serializeElems items (emit t2 ":[") with ⟨t3, r3⟩
          have hE3 : isEEEErm r3 = false := by
            have hq := notEL items (emit t2 ":[")
              (by show t2.level.level + compositesList items ≤ 255; omega)
            rw [h3] at hq
            exact hq
          cases r3
          · rfl
          · exact hE3
          · exact hE3
        · exact hE2
        · exact hE2
      · exact hE1
      · exact hE1
  | .map entries => fun s h => by
      have hc : composites (Value.map entries) = 1 + compositesEntries entries := rfl
      simp only [serializeValue, bindStep, stepOk]
      rcases he : serializeEntries entries { s with level := s.level.open_level } with ⟨t2, r⟩
      have hE := notEE entries { s with level := s.level.open_level }
        (by show 1 ≤ (s.level.open_level).level; rw [open_level_level]; omega)
        (by show (s.level.open_level).level + compositesEntries entries ≤ 255;
            rw [open_level_level]; omega)
      rw [he] at hE
      cases r
      · rfl
      · exact hE
      · exact hE
  | .struct n1 fields => fun s h => by
      have hc : composites (Value.struct n1 fields) = 1 + compositesFields fields := rfl
      simp only [serializeValue, bindStep, stepOk]
      exact notEF fields { s with level := s.level.open_level }
        (by show 1 ≤ (s.level.open_level).level; rw [open_level_level]; omega)
        (by show (s.level.open_level).level + compositesFields fields ≤ 255;
            rw [open_level_level]; omega)
  | .structVariant n1 variant fields => fun s h => by
      have hc : composites (Value.structVariant n1 variant fields) = compositesFields fields := rfl
      simp only [serializeValue, bindStep, stepOk]
      rcases h2 : serialize_str variant (emit s "\x7b") with ⟨t2, r2⟩
      have hE2 : isEEEErm r2 = false := by
        have hq := notE_preEmit variant (emit s "\x7b")
        rw [serialize_str_eq] at h2
        rw [h2] at hq
        exact hq
      have e2 : t2.level.level = s.level.level := by
        have hq := preEmit_level variant (emit s "\x7b")
        rw [serialize_str_eq] at h2
        rw [h2] at hq
        exact congrArg LevelTracker.level hq
      cases r2
      · simp only [bindStep, stepOk]
        rcases h4 : serializeSVFields fields (emit t2 ":\x7b") with ⟨t4, r4⟩
        have hE4 : isEEEErm r4 = false := by
          have hq := notESV fields (emit t2 ":\x7b")
            (by show t2.level.level + compositesFields fields ≤ 255; omega)
          rw [h4] at hq
          exact hq
        cases r4
        · rfl
        · exact hE4
        · exact hE4
      · exact hE2
      · exact hE2

theorem notEL (l : List Value) : ∀ s : Serializer, s.level.level + compositesList l ≤ 255 →
    isEEEErm ((serializeElems l s).2) = false :=
  match l with
  | [] => fun s _ => rfl
  | v :: rest => fun s h => by
      have hc : compositesList (v :: rest) = composites v + compositesList rest := rfl
      simp only [serializeElems]
      rcases h1 : serializeValue v (seqElemSep s) with ⟨t1, r1⟩
      have hsn : (seqElemSep s).level.level = s.level.level := by
        simp only [seqElemSep_level]
      have hE1 : isEEEErm r1 = false := by
        have hq := notEV v (seqElemSep s) (by rw [hsn]; omega)
        rw [h1] at hq
        exact hq
      have hb := boundV v (seqElemSep s) (by rw [hsn]; omega)
      rw [h1, hsn] at hb
      have hb2 : t1.level.level ≤ s.level.level + composites v := hb.2
      cases r1
      · simp only [bindStep]
        exact notEL rest t1 (by omega)
      · exact hE1
      · exact hE1

theorem notEE (es : List (Value × Value)) : ∀ s : Serializer, 1 ≤ s.level.level →
    s.level.level + compositesEntries es ≤ 255 →
    isEEEErm ((serializeEntries es s).2) = false :=
  match es with
  | [] => fun s _ _ => rfl
  | (k, v) :: rest => fun s h1 hb => by
      have hc : compositesEntries ((k, v) :: rest)
          = composites k + composites v + compositesEntries rest := rfl
      rw [serializeEntries_cons]
      rcases hks : serialize_key k s with ⟨t1, r1⟩
      have hkE : isEEEErm r1 = false := by
        have hq := serialize_key_notE k (fun t ht => notEV k t ht) s h1 (by omega)
        rw [hks] at hq
        exact hq
      have hkB := serialize_key_bound k (fun t ht => boundV k t ht) s (by omega)
      rw [hks] at hkB
      have hk1 : s.level.level ≤ t1.level.level := hkB.1
      have hk2 : t1.level.level ≤ s.level.level + composites k := hkB.2
      cases r1
      · simp only [bindStep]
        rcases hv : serializeValue v t1 with ⟨t2, r2⟩
        have hvE : isEEEErm r2 = false := by
          have hq := notEV v t1 (by omega)
          rw [hv] at hq
          exact hq
        have hvB := boundV v t1 (by omega)
        rw [hv] at hvB
        have hv1 : t1.level.level ≤ t2.level.level := hvB.1
        have hv2 : t2.level.level ≤ t1.level.level + composites v := hvB.2
        cases r2
        · simp only [bindStep, stepOk]
          exact notEE rest (emit t2 "\n") (by show 1 ≤ t2.level.level; omega)
            (by show t2.level.level + compositesEntries rest ≤ 255; omega)
        · exact hvE
        · exact hvE
      · exact hkE
      · exact hkE

theorem notEF (fs : List (String × Value)) : ∀ s : Serializer, 1 ≤ s.level.level →
    s.level.level + compositesFields fs ≤ 255 →
    isEEEErm ((serializeFields fs s).2) = false :=
  match fs with
  | [] => fun s _ _ => rfl
  | (name, v) :: rest => fun s h1 hb => by
      have hc : compositesFields ((name, v) :: rest)
          = composites v + compositesFields rest := rfl
      simp only [serializeFields]
      rcases hks : serialize_fieldKey name s with ⟨t1, r1⟩
      have hkE : isEEEErm r1 = false := by
        have hq := notE_fieldKey name s h1
        rw [hks] at hq
        exact hq
      have e1 : t1.level.level = s.level.level := by
        have hq := fieldKey_level name s
        rw [hks] at hq
        exact hq
      cases r1
      · simp only [bindStep]
        rcases hv : serializeValue v t1 with ⟨t2, r2⟩
        have hvE : isEEEErm r2 = false := by
          have hq := notEV v t1 (by omega)
          rw [hv] at hq
          exact hq
        have hvB := boundV v t1 (by omega)
        rw [hv] at hvB
        have hv1 : t1.level.level ≤ t2.level.level := hvB.1
        have hv2 : t2.level.level ≤ t1.level.level + composites v := hvB.2
        cases r2
        · simp only [bindStep, stepOk]
          exact notEF rest (emit t2 "\n") (by show 1 ≤ t2.level.level; omega)
            (by show t2.level.level + compositesFields rest ≤ 255; omega)
        · exact hvE
        · exact hvE
      · exact hkE
      · exact hkE

theorem notESV (fs : List (String × Value)) : ∀ s : Serializer,
    s.level.level + compositesFields fs ≤ 255 →
    isEEEErm ((serializeSVFields fs s).2) = false :=
  match fs with
  | [] => fun s _ => rfl
  | (name, v) :: rest => fun s hb => by
      have hc : compositesFields ((name, v) :: rest)
          = composites v + compositesFields rest := rfl
      simp only [serializeSVFields]
      rcases h1 : serialize_str name s with ⟨t1, r1⟩
      have hE1 : isEEEErm r1 = false := by
        have hq := notE_preEmit name s
        rw [serialize_str_eq] at h1
        rw [h1] at hq
        exact hq
      have e1 : t1.level.level = s.level.level := by
        have hq := preEmit_level name s
        rw [serialize_str_eq] at h1
        rw [h1] at hq
        exact congrArg LevelTracker.level hq
      cases r1
      · simp only [bindStep, stepOk]
        rcases hv : serializeValue v (emit t1 ":") with ⟨t2, r2⟩
        have hvE : isEEEErm r2 = false := by
          have hq := notEV v (emit t1 ":")
            (by show t1.level.level + composites v ≤ 255; omega)
          rw [hv] at hq
          exact hq
        have hvB := boundV v (emit t1 ":")
          (by show t1.level.level + composites v ≤ 255; omega)
        rw [hv] at hvB
        have hv1 : t1.level.level ≤ t2.level.level := hvB.1
        have hv2 : t2.level.level ≤ t1.level.level + composites v := hvB.2
        cases r2
        · simp only [bindStep]
          exact notESV rest t2 (by omega)
        · exact hvE
        · exact hvE
      · exact hE1
      · exact hE1

end

/-! ## The ghost traces stay well placed on every encode -/

theorem serialize_key_trace (k : Value)
    (hk : ∀ t : Serializer, TraceOK t → TraceOK ((serializeValue k t).1))
    (s : Serializer) (h : TraceOK s) :
    TraceOK (serialize_key k s).1 := by
  unfold serialize_key
  split
  · split
    · exact h
    · refine bindStep_trace h fun t ht => ?_
      exact bindStep_trace (hk t ht) fun t2 ht2 => ht2
    · exact ⟨forall_mem_append_two h.1, h.2⟩
    · split
      · refine bindStep_trace ⟨h.1, forall_mem_append_or h.2 (Or.inr rfl)⟩ fun t ht => ?_
        exact bindStep_trace (hk t ht) fun t2 ht2 => ht2
      · exact ⟨h.1, forall_mem_append_or h.2 (Or.inr rfl)⟩
    · exact h
  · exact h
  · exact h

mutual

theorem traceV (v : Value) : ∀ s : Serializer, TraceOK s → TraceOK ((serializeValue v s).1) :=
  match v with
  | .bool b => fun s h => by
      simp only [serializeValue, serialize_bool_eq]
      exact trace_preEmit _ s h
  | .i64 n => fun s h => by
      simp only [serializeValue, serialize_i64_eq]
      exact trace_preEmit _ s h
  | .u64 n => fun s h => by
      simp only [serializeValue, serialize_u64_eq]
      exact trace_preEmit _ s h
  | .char c => fun s h => by
      simp only [serializeValue, serialize_str_eq]
      exact trace_preEmit _ s h
  | .str v => fun s h => by
      simp only [serializeValue, serialize_str_eq]
      exact trace_preEmit _ s h
  | .bytes bs => fun s h => by
      simp only [serializeValue]
      refine bindStep_trace (trace_write_pre_val s h) fun t ht => ?_
      refine bindStep_trace (trace_serialize_seq _ ht) fun t2 ht2 => ?_
      exact bindStep_trace (trace_byteElems bs t2 ht2) fun t3 ht3 => ht3
  | .none => fun s h => by
      simp only [serializeValue, serialize_unit_eq]
      exact trace_preEmit _ s h
  | .some v => fun s h => traceV v s h
  | .unit => fun s h => by
      simp only [serializeValue, serialize_unit_eq]
      exact trace_preEmit _ s h
  | .unitStruct _ => fun s h => by
      simp only [serializeValue, serialize_unit_eq]
      exact trace_preEmit _ s h
  | .unitVariant _ variant => fun s h => by
      simp only [serializeValue, serialize_str_eq]
      exact trace_preEmit _ s h
  | .newtypeStruct _ v => fun s h => traceV v s h
  | .newtypeVariant _ variant v => fun s h => by
      simp only [serializeValue]
      refine bindStep_trace (trace_write_pre_val s h) fun t ht => ?_
      refine bindStep_trace (by rw [serialize_str_eq]; exact trace_preEmit _ t ht) fun t2 ht2 => ?_
      exact bindStep_trace ht2 fun t3 ht3 => traceV v t3 ht3
  | .seq items => fun s h => by
      simp only [serializeValue]
      refine bindStep_trace (trace_serialize_seq s h) fun t ht => ?_
      exact bindStep_trace (traceL items t ht) fun t2 ht2 => ht2
  | .tuple items => fun s h => by
      simp only [serializeValue]
      refine bindStep_trace (trace_serialize_seq s h) fun t ht => ?_
      exact bindStep_trace (traceL items t ht) fun t2 ht2 => ht2
  | .tupleStruct _ items => fun s h => by
      simp only [serializeValue]
      refine bindStep_trace (trace_serialize_seq s h) fun t ht => ?_
      exact bindStep_trace (traceL items t ht) fun t2 ht2 => ht2
  | .tupleVariant _ variant items => fun s h => by
      simp only [serializeValue]
      refine bindStep_trace (trace_write_pre_val s h) fun t ht => ?_
      refine bindStep_trace ht fun t2 ht2 => ?_
      refine bindStep_trace (by rw [serialize_str_eq]; exact trace_preEmit _ t2 ht2) fun t3 ht3 => ?_
      refine bindStep_trace ht3 fun t4 ht4 => ?_
      exact bindStep_trace (traceL items t4 ht4) fun t5 ht5 => ht5
  | .map entries => fun s h => by
      simp only [serializeValue, bindStep, stepOk]
      rcases he : serializeEntries entries { s with level := s.level.open_level } with ⟨t2, r⟩
      have hE := traceE entries { s with level := s.level.open_level } h
      rw [he] at hE
      cases r
      · exact hE
      · exact hE
      · exact hE
  | .struct _ fields => fun s h => by
      simp only [serializeValue, bindStep, stepOk]
      exact traceF fields { s with level := s.level.open_level } h
  | .structVariant _ variant fields => fun s h => by
      simp only [serializeValue]
      refine bindStep_trace h fun t ht => ?_
      refine bindStep_trace (by rw [serialize_str_eq]; exact trace_preEmit _ t ht) fun t2 ht2 => ?_
      refine bindStep_trace ht2 fun t3 ht3 => ?_
      exact bindStep_trace (traceSV fields t3 ht3) fun t4 ht4 => ht4

theorem traceL (l : List Value) : ∀ s : Serializer, TraceOK s → TraceOK ((serializeElems l s).1) :=
  match l with
  | [] => fun s h => h
  | v :: rest => fun s h => by
      simp only [serializeElems]
      exact bindStep_trace (traceV v (seqElemSep s) (trace_seqElemSep s h)) fun t ht =>
        traceL rest t ht

theorem traceE (es : List (Value × Value)) : ∀ s : Serializer, TraceOK s →
    TraceOK ((serializeEntries es s).1) :=
  match es with
  | [] => fun s h => h
  | (k, v) :: rest => fun s h => by
      rw [serializeEntries_cons]
      refine bindStep_trace (serialize_key_trace k (traceV k) s h) fun t ht => ?_
      refine bindStep_trace (traceV v t ht) fun t2 ht2 => ?_
      exact bindStep_trace ht2 fun t3 ht3 => traceE rest t3 ht3

theorem traceF (fs : List (String × Value)) : ∀ s : Serializer, TraceOK s →
    TraceOK ((serializeFields fs s).1) :=
  match fs with
  | [] => fun s h => h
  | (name, v) :: rest => fun s h => by
      simp only [serializeFields]
      refine bindStep_trace (trace_fieldKey name s h) fun t ht => ?_
      refine bindStep_trace (traceV v t ht) fun t2 ht2 => ?_
      exact bindStep_trace ht2 fun t3 ht3 => traceF rest t3 ht3

theorem traceSV (fs : List (String × Value)) : ∀ s : Serializer, TraceOK s →
    TraceOK ((serializeSVFields fs s).1) :=
  match fs with
  | [] => fun s h => h
  | (name, v) :: rest => fun s h => by
      simp only [serializeSVFields]
      refine bindStep_trace (by rw [serialize_str_eq]; exact trace_preEmit _ s h) fun t ht => ?_
      refine bindStep_trace ht fun t2 ht2 => ?_
      exact bindStep_trace (traceV v t2 ht2) fun t3 ht3 => traceSV rest t3 ht3

end

/-- Closing a level from depth 2 always clears the pending key. -/
theorem close_level_clears (t : LevelTracker) (h : t.level = 2) :
    (t.close_level).key_name = none := by
  unfold LevelTracker.close_level
  rw [if_pos h]

/-! ## Struct-free values preserve the level and the emitted headers

A successful serialization of a value containing no `struct` leaves the
nesting level exactly where it was and emits no section header, as long as it
starts at level 1 or deeper (so no key dispatch of a nested composite can hit
the header arm) and no deeper than 255 (a `u8` value).  The wrap corner is
closed off by `entries_ok_at0`: a map whose `open_level` wrapped 255 to 0 can
only end in `ok` when it has no entries, in which case `close_level` wraps
straight back and the tracker is preserved anyway. -/

theorem entries_ok_at0 (es : List (Value × Value)) (s s' : Serializer)
    (h0 : s.level.level = 0) (hok : serializeEntries es s = (s', .ok)) : s' = s := by
  cases es with
  | nil =>
      simp only [serializeEntries, stepOk] at hok
      injection hok with ha hb
      exact ha.symm
  | cons e rest =>
      obtain ⟨k, v⟩ := e
      rw [serializeEntries_cons] at hok
      unfold serialize_key at hok
      split at hok
      · split at hok
        · simp only [bindStep] at hok
          exact absurd hok (by simp)
        · omega
        · omega
        · omega
        · omega
      · simp only [bindStep] at hok
        exact absurd hok (by simp)
      · simp only [bindStep] at hok
        exact absurd hok (by simp)

theorem pure_of_fst (s0 : Serializer) {X : Step} {s' : Serializer} {r : Res}
    (hx : X = (s', r))
    (hl : ((X.1)).level.level = s0.level.level) (hh : ((X.1)).headers = s0.headers) :
    s'.level.level = s0.level.level ∧ s'.headers = s0.headers := by
  have h1 : X.1 = s' := by rw [hx]
  rw [← h1]
  exact ⟨hl, hh⟩

theorem serialize_key_pure (k : Value)
    (hk : ∀ t t' : Serializer, structFree k = true → 1 ≤ t.level.level → t.level.level ≤ 255 →
      serializeValue k t = (t', .ok) → t'.level.level = t.level.level ∧ t'.headers = t.headers) :
    ∀ s s' : Serializer, structFree k = true → 2 ≤ s.level.level → s.level.level ≤ 255 →
      serialize_key k s = (s', .ok) →
      s'.level.level = s.level.level ∧ s'.headers = s.headers := by
  intro s s' hfree hlev h8 hok
  unfold serialize_key at hok
  split at hok
  · split at hok
    · exact absurd hok (by simp)
    · omega
    · exact pure_of_fst s hok (by simp) (by simp)
    · split at hok
      · obtain ⟨t1, h1, hok⟩ := bindStep_eq_ok hok
        obtain ⟨t2, h2, hok⟩ := bindStep_eq_ok hok
        have p1 := pure_of_fst s h1 (by simp) (by simp)
        have p2 := hk t1 t2 hfree (by omega) (by omega) h2
        have p3 := pure_of_fst t2 hok (by simp) (by simp)
        exact ⟨by omega, by rw [p3.2, p2.2, p1.2]⟩
      · exact absurd hok (by simp)
    · exact absurd hok (by simp)
  · exact absurd hok (by simp)
  · exact absurd hok (by simp)

mutual

theorem pureV (v : Value) : ∀ s s' : Serializer, structFree v = true → 1 ≤ s.level.level →
    s.level.level ≤ 255 → serializeValue v s = (s', .ok) →
    s'.level.level = s.level.level ∧ s'.headers = s.headers :=
  match v with
  | .bool b => fun s s' _ _ _ hok => by
      simp only [serializeValue, serialize_bool_eq] at hok
      exact pure_of_fst s hok (by simp) (by simp)
  | .i64 n => fun s s' _ _ _ hok => by
      simp only [serializeValue, serialize_i64_eq] at hok
      exact pure_of_fst s hok (by simp) (by simp)
  | .u64 n => fun s s' _ _ _ hok => by
      simp only [serializeValue, serialize_u64_eq] at hok
      exact pure_of_fst s hok (by simp) (by simp)
  | .char c => fun s s' _ _ _ hok => by
      simp only [serializeValue, serialize_str_eq] at hok
      exact pure_of_fst s hok (by simp) (by simp)
  | .str v => fun s s' _ _ _ hok => by
      simp only [serializeValue, serialize_str_eq] at hok
      exact pure_of_fst s hok (by simp) (by simp)
  | .bytes bs => fun s s' _ _ _ hok => by
      simp only [serializeValue] at hok
      obtain ⟨t1, h1, hok⟩ := bindStep_eq_ok hok
      obtain ⟨t2, h2, hok⟩ := bindStep_eq_ok hok
      obtain ⟨t3, h3, hok⟩ := bindStep_eq_ok hok
      have p1 := pure_of_fst s h1 (by simp) (by simp)
      have p2 := pure_of_fst t1 h2 (by simp) (by simp)
      have p3 := pure_of_fst t2 h3
        (congrArg LevelTracker.level (byteElems_frame bs t2).1) ((byteElems_frame bs t2).2.1)
      have p4 := pure_of_fst t3 hok (by simp) (by simp)
      exact ⟨by omega, by rw [p4.2, p3.2, p2.2, p1.2]⟩
  | .none => fun s s' _ _ _ hok => by
      simp only [serializeValue, serialize_unit_eq] at hok
      exact pure_of_fst s hok (by simp) (by simp)
  | .some v => fun s s' hfree hlev h8 hok => by
      simp only [serializeValue] at hok
      exact pureV v s s' (by simpa [structFree] using hfree) hlev h8 hok
  | .unit => fun s s' _ _ _ hok => by
      simp only [serializeValue, serialize_unit_eq] at hok
      exact pure_of_fst s hok (by simp) (by simp)
  | .unitStruct _ => fun s s' _ _ _ hok => by
      simp only [serializeValue, serialize_unit_eq] at hok
      exact pure_of_fst s hok (by simp) (by simp)
  | .unitVariant _ variant => fun s s' _ _ _ hok => by
      simp only [serializeValue, serialize_str_eq] at hok
      exact pure_of_fst s hok (by simp) (by simp)
  | .newtypeStruct _ v => fun s s' hfree hlev h8 hok => by
      simp only [serializeValue] at hok
      exact pureV v s s' (by simpa [structFree] using hfree) hlev h8 hok
  | .newtypeVariant _ variant v => fun s s' hfree hlev h8 hok => by
      simp only [serializeValue] at hok
      obtain ⟨t1, h1, hok⟩ := bindStep_eq_ok hok
      obtain ⟨t2, h2, hok⟩ := bindStep_eq_ok hok
      obtain ⟨t3, h3, hok⟩ := bindStep_eq_ok hok
      have p1 := pure_of_fst s h1 (by simp) (by simp)
      have p2 : t2.level.level = t1.level.level ∧ t2.headers = t1.headers := by
        rw [serialize_str_eq] at h2
        exact pure_of_fst t1 h2 (by simp) (by simp)
      have p3 := pure_of_fst t2 h3 (by simp) (by simp)
      have p4 := pureV v t3 s' (by simpa [structFree] using hfree) (by omega) (by omega) hok
      exact ⟨by omega, by rw [p4.2, p3.2, p2.2, p1.2]⟩
  | .seq items => fun s s' hfree hlev h8 hok => by
      simp only [serializeValue] at hok
      obtain ⟨t1, h1, hok⟩ := bindStep_eq_ok hok
      obtain ⟨t2, h2, hok⟩ := bindStep_eq_ok hok
      have p1 := pure_of_fst s h1 (by simp) (by simp)
      have p2 := pureL items t1 t2 (by simpa [structFree] using hfree) (by omega) (by omega) h2
      have p3 := pure_of_fst t2 hok (by simp) (by simp)
      exact ⟨by omega, by rw [p3.2, p2.2, p1.2]⟩
  | .tuple items => fun s s' hfree hlev h8 hok => by
      simp only [serializeValue] at hok
      obtain ⟨t1, h1, hok⟩ := bindStep_eq_ok hok
      obtain ⟨t2, h2, hok⟩ := bindStep_eq_ok hok
      have p1 := pure_of_fst s h1 (by simp) (by simp)
      have p2 := pureL items t1 t2 (by simpa [structFree] using hfree) (by omega) (by omega) h2
      have p3 := pure_of_fst t2 hok (by simp) (by simp)
      exact ⟨by omega, by rw [p3.2, p2.2, p1.2]⟩
  | .tupleStruct _ items => fun s s' hfree hlev h8 hok => by
      simp only [serializeValue] at hok
      obtain ⟨t1, h1, hok⟩ := bindStep_eq_ok hok
      obtain ⟨t2, h2, hok⟩ := bindStep_eq_ok hok
      have p1 := pure_of_fst s h1 (by simp) (by simp)
      have p2 := pureL items t1 t2 (by simpa [structFree] using hfree) (by omega) (by omega) h2
      have p3 := pure_of_fst t2 hok (by simp) (by simp)
      exact ⟨by omega, by rw [p3.2, p2.2, p1.2]⟩
  | .tupleVariant _ variant items => fun s s' hfree hlev h8 hok => by
      simp only [serializeValue] at hok
      obtain ⟨t1, h1, hok⟩ := bindStep_eq_ok hok
      obtain ⟨t2, h2, hok⟩ := bindStep_eq_ok hok
      obtain ⟨t3, h3, hok⟩ := bindStep_eq_ok hok
      obtain ⟨t4, h4, hok⟩ := bindStep_eq_ok hok
      obtain ⟨t5, h5, hok⟩ := bindStep_eq_ok hok
      have p1 := pure_of_fst s h1 (by simp) (by simp)
      have p2 := pure_of_fst t1 h2 (by simp) (by simp)
      have p3 : t3.level.level = t2.level.level ∧ t3.headers = t2.headers := by
        rw [serialize_str_eq] at h3
        exact pure_of_fst t2 h3 (by simp) (by simp)
      have p4 := pure_of_fst t3 h4 (by simp) (by simp)
      have p5 := pureL items t4 t5 (by simpa [structFree] using hfree) (by omega) (by omega) h5
      have p6 := pure_of_fst t5 hok (by simp) (by simp)
      exact ⟨by omega, by rw [p6.2, p5.2, p4.2, p3.2, p2.2, p1.2]⟩
  | .map entries => fun s s' hfree hlev h8 hok => by
      simp only [serializeValue, bindStep, stepOk] at hok
      rcases he : serializeEntries entries { s with level := s.level.open_level } with ⟨t2, r⟩
      rw [he] at hok
      cases r
      · simp only [bindStep, stepOk] at hok
        injection hok with h2 h3
        by_cases h255 : s.level.level = 255
        · have hu := entries_ok_at0 entries { s with level := s.level.open_level } t2
            (by show (s.level.open_level).level = 0; rw [open_level_level]; omega) he
          rw [← h2, hu]
          constructor
          · show ((s.level.open_level).close_level).level = s.level.level
            rw [close_level_level, open_level_level]
            omega
          · rfl
        · have hopen : ({ s with level := s.level.open_level } : Serializer).level.level
              = s.level.level + 1 := by
            show (s.level.open_level).level = s.level.level + 1
            rw [open_level_level]
            omega
          have p2 := pureE entries { s with level := s.level.open_level } t2
            (by simpa [structFree] using hfree) (by rw [hopen]; omega) (by rw [hopen]; omega) he
          have p2a : t2.level.level = s.level.level + 1 := by
            rw [hopen] at p2
            exact p2.1
          rw [← h2]
          constructor
          · show (t2.level.close_level).level = s.level.level
            rw [close_level_level]
            omega
          · show t2.headers = s.headers
            exact p2.2
      · simp only [bindStep] at hok
        exact absurd hok (by simp)
      · simp only [bindStep] at hok
        exact absurd hok (by simp)
  | .struct _ fields => fun s s' hfree hlev h8 hok => by
      simp [structFree] at hfree
  | .structVariant _ variant fields => fun s s' hfree hlev h8 hok => by
      simp only [serializeValue] at hok
      obtain ⟨t1, h1, hok⟩ := bindStep_eq_ok hok
      obtain ⟨t2, h2, hok⟩ := bindStep_eq_ok hok
      obtain ⟨t3, h3, hok⟩ := bindStep_eq_ok hok
      obtain ⟨t4, h4, hok⟩ := bindStep_eq_ok hok
      have p1 := pure_of_fst s h1 (by simp) (by simp)
      have p2 : t2.level.level = t1.level.level ∧ t2.headers = t1.headers := by
        rw [serialize_str_eq] at h2
        exact pure_of_fst t1 h2 (by simp) (by simp)
      have p3 := pure_of_fst t2 h3 (by simp) (by simp)
      have p4 := pureSV fields t3 t4 (by simpa [structFree] using hfree) (by omega) (by omega) h4
      have p5 := pure_of_fst t4 hok (by simp) (by simp)
      exact ⟨by omega, by rw [p5.2, p4.2, p3.2, p2.2, p1.2]⟩

theorem pureL (l : List Value) : ∀ s s' : Serializer, structFreeList l = true →
    1 ≤ s.level.level → s.level.level ≤ 255 → serializeElems l s = (s', .ok) →
    s'.level.level = s.level.level ∧ s'.headers = s.headers :=
  match l with
  | [] => fun s s' _ _ _ hok => by
      simp only [serializeElems, stepOk] at hok
      exact pure_of_fst s hok (by simp) (by simp)
  | v :: rest => fun s s' hfree hlev h8 hok => by
      simp only [serializeElems] at hok
      obtain ⟨t1, h1, hok⟩ := bindStep_eq_ok hok
      simp only [structFreeList, Bool.and_eq_true] at hfree
      have p1 := pureV v (seqElemSep s) t1 hfree.1 (by simp; omega) (by simp; omega) h1
      simp only [seqElemSep_level, seqElemSep_headers] at p1
      have p2 := pureL rest t1 s' hfree.2 (by omega) (by omega) hok
      exact ⟨by omega, by rw [p2.2, p1.2]⟩

theorem pureE (es : List (Value × Value)) : ∀ s s' : Serializer, structFreeEntries es = true →
    2 ≤ s.level.level → s.level.level ≤ 255 → serializeEntries es s = (s', .ok) →
    s'.level.level = s.level.level ∧ s'.headers = s.headers :=
  match es with
  | [] => fun s s' _ _ _ hok => by
      simp only [serializeEntries, stepOk] at hok
      exact pure_of_fst s hok (by simp) (by simp)
  | (k, v) :: rest => fun s s' hfree hlev h8 hok => by
      rw [serializeEntries_cons] at hok
      obtain ⟨t1, h1, hok⟩ := bindStep_eq_ok hok
      obtain ⟨t2, h2, hok⟩ := bindStep_eq_ok hok
      obtain ⟨t3, h3, hok⟩ := bindStep_eq_ok hok
      simp only [structFreeEntries, Bool.and_eq_true] at hfree
      have p1 := serialize_key_pure k (pureV k) s t1 hfree.1.1 hlev h8 h1
      have p2 := pureV v t1 t2 hfree.1.2 (by omega) (by omega) h2
      have p3 := pure_of_fst t2 h3 (by simp) (by simp)
      have p4 := pureE rest t3 s' hfree.2 (by omega) (by omega) hok
      exact ⟨by omega, by rw [p4.2, p3.2, p2.2, p1.2]⟩

theorem pureSV (fs : List (String × Value)) : ∀ s s' : Serializer, structFreeFields fs = true →
    1 ≤ s.level.level → s.level.level ≤ 255 → serializeSVFields fs s = (s', .ok) →
    s'.level.level = s.level.level ∧ s'.headers = s.headers :=
  match fs with
  | [] => fun s s' _ _ _ hok => by
      simp only [serializeSVFields, stepOk] at hok
      exact pure_of_fst s hok (by simp) (by simp)
  | (name, v) :: rest => fun s s' hfree hlev h8 hok => by
      simp only [serializeSVFields] at hok
      obtain ⟨t1, h1, hok⟩ := bindStep_eq_ok hok
      obtain ⟨t2, h2, hok⟩ := bindStep_eq_ok hok
      obtain ⟨t3, h3, hok⟩ := bindStep_eq_ok hok
      simp only [structFreeFields, Bool.and_eq_true] at hfree
      have p1 : t1.level.level = s.level.level ∧ t1.headers = s.headers := by
        rw [serialize_str_eq] at h1
        exact pure_of_fst s h1 (by simp) (by simp)
      have p2 := pure_of_fst t1 h2 (by simp) (by simp)
      have p3 := pureV v t2 t3 hfree.1 (by omega) (by omega) h3
      have p4 := pureSV rest t3 s' hfree.2 (by omega) (by omega) hok
      exact ⟨by omega, by rw [p4.2, p3.2, p2.2, p1.2]⟩

end

theorem bindStep_eq_headers {hs : List String} {x : Step} {f : Serializer → Step}
    (hx : ((x.1)).headers = hs)
    (hf : ∀ t, ((f t).1).headers = t.headers) :
    ((bindStep x f).1).headers = hs := by
  rcases x with ⟨t, r⟩
  cases r
  · rw [show bindStep (t, Res.ok) f = f t from rfl, hf t]; exact hx
  · exact hx
  · exact hx

/-- At level 2 or deeper a struct field key emits no section header. -/
theorem fieldKey_headers_ge2 (name : String) (s : Serializer) (h : 2 ≤ s.level.level) :
    ((serialize_fieldKey name s).1).headers = s.headers := by
  unfold serialize_fieldKey
  split
  · omega
  · omega
  · rfl
  · split
    · refine bindStep_eq_headers ?_ fun t => ?_
      · simp
      · exact bindStep_eq_headers (by simp) fun t2 => by simp
    · rfl
  · rfl

/-- Struct fields processed at level 2 or deeper (and at most 255), holding
struct-free values, preserve the level and emit no header (on success). -/
theorem pureF (fs : List (String × Value)) : ∀ s s' : Serializer, structFreeFields fs = true →
    2 ≤ s.level.level → s.level.level ≤ 255 → serializeFields fs s = (s', .ok) →
    s'.level.level = s.level.level ∧ s'.headers = s.headers := by
  induction fs with
  | nil =>
      intro s s' _ _ _ hok
      simp only [serializeFields, stepOk] at hok
      exact pure_of_fst s hok (by simp) (by simp)
  | cons hd rest ih =>
      intro s s' hfree hlev h8 hok
      obtain ⟨name, v⟩ := hd
      simp only [serializeFields] at hok
      simp only [structFreeFields, Bool.and_eq_true] at hfree
      obtain ⟨t1, h1, hok⟩ := bindStep_eq_ok hok
      obtain ⟨t2, h2, hok⟩ := bindStep_eq_ok hok
      obtain ⟨t3, h3, hok⟩ := bindStep_eq_ok hok
      have p1 := pure_of_fst s h1 (fieldKey_level name s) (fieldKey_headers_ge2 name s hlev)
      have p2 := pureV v t1 t2 hfree.1 (by omega) (by omega) h2
      have p3 := pure_of_fst t2 h3 (by simp) (by simp)
      have p4 := ih t3 s' hfree.2 (by omega) (by omega) hok
      exact ⟨by omega, by rw [p4.2, p3.2, p2.2, p1.2]⟩

/-- The root field loop: at level 1 each field emits exactly one section
header carrying its name, in order, provided the field values are
struct-free (so they return to level 1 and emit no headers themselves). -/
theorem headersFold (fs : List (String × Value)) : ∀ s s' : Serializer,
    s.level.level = 1 → structFreeFields fs = true →
    serializeFields fs s = (s', .ok) →
    s'.headers = s.headers ++ fs.map Prod.fst ∧ s'.level.level = 1 := by
  induction fs with
  | nil =>
      intro s s' hlev _ hok
      simp only [serializeFields, stepOk] at hok
      have h1 : s = s' := by injection hok
      rw [← h1]
      simp [hlev]
  | cons hd rest ih =>
      intro s s' hlev hfree hok
      obtain ⟨name, v⟩ := hd
      simp only [serializeFields] at hok
      simp only [structFreeFields, Bool.and_eq_true] at hfree
      obtain ⟨t1, h1, hok⟩ := bindStep_eq_ok hok
      obtain ⟨t2, h2, hok⟩ := bindStep_eq_ok hok
      obtain ⟨t3, h3, hok⟩ := bindStep_eq_ok hok
      rw [fieldKey_at1 name s hlev] at h1
      injection h1 with e1 _
      have ht1h : t1.headers = s.headers ++ [name] := by rw [← e1]
      have ht1l : t1.level.level = 1 := by rw [← e1]; simpa using hlev
      have p2 := pureV v t1 t2 hfree.1 (by omega) (by omega) h2
      have p3 := pure_of_fst t2 h3 (by simp) (by simp)
      have ht3l : t3.level.level = 1 := by omega
      have p4 := ih t3 s' ht3l hfree.2 hok
      constructor
      · rw [p4.1, p3.2, p2.2, ht1h]
        simp [List.append_assoc]
      · exact p4.2

/-! ## Sequence rendering -/

/-- The separator-joined block an element loop appends after the first
element: one `;` before each further token. -/
def prefJoin : List String → String
  | [] => ""
  | x :: rest => ";" ++ x ++ prefJoin rest

/-- The tokens joined by `;` (no leading or trailing separator). -/
def joinSep : List String → String
  | [] => ""
  | [x] => x
  | x :: y :: rest => x ++ ";" ++ joinSep (y :: rest)

theorem joinSep_cons : ∀ (rest : List String) (x : String),
    joinSep (x :: rest) = x ++ prefJoin rest := by
  intro rest
  induction rest with
  | nil => intro x; simp [joinSep, prefJoin]
  | cons y rest2 ih =>
      intro x
      simp only [joinSep, prefJoin]
      rw [ih y]
      simp [String.append_assoc, prefJoin]

theorem endsWithEq_append (a x : String) (hx : x.data ≠ []) :
    endsWithEq (a ++ x) = endsWithEq x := by
  unfold endsWithEq
  rw [String.data_append, List.getLast?_append_of_ne_nil a.data hx]

/-- After the first element the loop writes `;` before every further
element: the appended text is `prefJoin`. -/
theorem elemsStr_pref (items : List String) : ∀ s : Serializer,
    s.disable_write_key = true → endsWithEq s.output = false →
    (∀ x ∈ items, x.data ≠ [] ∧ endsWithEq x = false) →
    serializeElems (items.map Value.str) s =
      ({ s with output := s.output ++ prefJoin items }, .ok) := by
  induction items with
  | nil =>
      intro s h1 h2 h3
      simp [serializeElems, prefJoin, stepOk]
  | cons x rest ih =>
      intro s h1 h2 h3
      simp only [List.map, serializeElems]
      have hsep : seqElemSep s = emit s ";" := by simp [seqElemSep, h2]
      rw [hsep]
      rw [show serializeValue (Value.str x) (emit s ";") = preEmit x (emit s ";") from rfl]
      rw [preEmit_disabled x (emit s ";") (by simpa using h1)]
      simp only [bindStep]
      have hx := h3 x (by simp)
      have h2b : endsWithEq (emit (emit s ";") x).output = false := by
        simp only [emit_output]
        rw [endsWithEq_append _ x hx.1]
        exact hx.2
      rw [ih (emit (emit s ";") x) (by simpa using h1) h2b (fun y hy => h3 y (by simp [hy]))]
      simp [emit, prefJoin, String.append_assoc]

/-- From a position whose output ends in `=` (right after a key prefix), a
loop over string elements appends exactly the `;`-joined tokens. -/
theorem elemsStr (items : List String) : ∀ s : Serializer,
    s.disable_write_key = true → endsWithEq s.output = true →
    (∀ x ∈ items, x.data ≠ [] ∧ endsWithEq x = false) →
    serializeElems (items.map Value.str) s =
      ({ s with output := s.output ++ joinSep items }, .ok) := by
  cases items with
  | nil =>
      intro s h1 h2 h3
      simp [serializeElems, joinSep, stepOk]
  | cons x rest =>
      intro s h1 h2 h3
      simp only [List.map, serializeElems]
      have hsep : seqElemSep s = s := by simp [seqElemSep, h2]
      rw [hsep]
      rw [show serializeValue (Value.str x) s = preEmit x s from rfl]
      rw [preEmit_disabled x s h1]
      simp only [bindStep]
      have hx := h3 x (by simp)
      have h2b : endsWithEq (emit s x).output = false := by
        simp only [emit_output]
        rw [endsWithEq_append s.output x hx.1]
        exact hx.2
      rw [elemsStr_pref rest (emit s x) (by simpa using h1) h2b (fun y hy => h3 y (by simp [hy]))]
      rw [joinSep_cons]
      simp [emit, String.append_assoc]

/-! ## Depth-2 map rendering (sub-key lines) -/

/-- The expected rendering of a depth-2 map's entries: one
`field[key]=value` line per entry. -/
def renderEntries (f : String) : List (String × String) → String
  | [] => ""
  | (k, v) :: rest => f ++ "[" ++ k ++ "]=" ++ v ++ "\n" ++ renderEntries f rest

theorem entriesStr (f : String) (entries : List (String × String)) :
    ∀ (out : String) (dis : Bool) (gh : List String) (gw gr : List Nat),
    serializeEntries (entries.map fun p => (Value.str p.1, Value.str p.2))
        ⟨out, ⟨3, some f⟩, dis, gh, gw, gr⟩ =
      (⟨out ++ renderEntries f entries, ⟨3, some f⟩, dis, gh, gw,
        gr ++ entries.map (fun _ => 3)⟩, .ok) := by
  induction entries with
  | nil =>
      intro out dis gh gw gr
      simp [serializeEntries, renderEntries, stepOk]
  | cons p rest ih =>
      intro out dis gh gw gr
      obtain ⟨k, v⟩ := p
      simp only [List.map, serializeEntries_cons]
      rw [show serialize_key (Value.str k) ⟨out, ⟨3, some f⟩, dis, gh, gw, gr⟩ =
        (⟨out ++ (f ++ "[") ++ k ++ "]=", ⟨3, some f⟩, dis, gh, gw, gr ++ [3]⟩, .ok) from rfl]
      simp only [bindStep]
      rw [show serializeValue (Value.str v) ⟨out ++ (f ++ "[") ++ k ++ "]=", ⟨3, some f⟩, dis, gh, gw, gr ++ [3]⟩ =
        (⟨out ++ (f ++ "[") ++ k ++ "]=" ++ v, ⟨3, some f⟩, dis, gh, gw, gr ++ [3]⟩, .ok) from rfl]
      simp only [bindStep, stepOk, emit]
      rw [ih]
      simp [renderEntries, String.append_assoc, List.append_assoc]

/-! ## Claim theorems -/

/-- The names of a root struct's top-level fields. -/
def rootFieldNames : Value → List String
  | .struct _ fs => fs.map Prod.fst
  | _ => []

/-- A root struct with two scalar fields (used as the C1 witness input). -/
def exTwoScalars : Value := .struct "R" [("A", .str "1"), ("B", .str "2")]

/-- C1 counterexample: the claim says every top-level field of a root struct
yields one section header, in order.  For the two-field root struct
`exTwoFields`, whose field values are structs, only the first field's header
is emitted (the nested struct leaves the tracker at depth 2, so the second
field is treated as a pending key instead of a header): the ghost header
list is `["A"]`, not `["A", "B"]`. -/
theorem claim_C1_counterexample :
    rootFieldNames exTwoFields = ["A", "B"] ∧
    ((runEncode exTwoFields).1).headers = ["A"] ∧
    ((["A"] : List String) == ["A", "B"]) = false :=
  ⟨rfl, rfl, by decide⟩

/-- C1 (amended): for every struct value submitted at the root of an encode
whose field values contain no nested struct, the encoder emits exactly one
section header per top-level named field, in field declaration order (the
ghost `headers` list records each emission of a header line, built as
`[name]` plus a newline). -/
theorem claim_C1 (nm : String) (fs : List (String × Value)) (s' : Serializer)
    (hfree : structFreeFields fs = true)
    (hok : runEncode (.struct nm fs) = (s', .ok)) :
    s'.headers = fs.map Prod.fst := by
  unfold runEncode at hok
  simp only [serializeValue, bindStep, stepOk] at hok
  have h := headersFold fs { initSerializer with level := initSerializer.level.open_level } s'
    rfl hfree hok
  simpa [initSerializer] using h.1

theorem claim_C1_witness :
    structFreeFields [("A", Value.str "1"), ("B", Value.str "2")] = true ∧
    ((runEncode exTwoScalars).1).headers = ["A", "B"] :=
  ⟨rfl, claim_C1 "R" [("A", Value.str "1"), ("B", Value.str "2")]
    ((runEncode exTwoScalars).1) rfl rfl⟩

/-- C2: a value nesting Map, Map, Struct, Struct reaches a fourth meaningful
level; encoding fails with the depth error naming level 4 (the source
renders the spec's `StructuralDepthExceeded` as `Error::Custom` of the
message naming the offending level), and never succeeds with truncated
output — this holds for arbitrary keys, names, the innermost field's value
and any further fields. -/
theorem claim_C2 (k1 k2 n1 f1 n2 g1 : String) (w1 : Value) (fr : List (String × Value)) :
    to_string (.map [(.str k1, .map [(.str k2,
      .struct n1 [(f1, .struct n2 ((g1, w1) :: fr))])])]) = .err (depthExceededError 4) := rfl

/-- C3 counterexample: the claim says an empty sequence renders as the empty
string.  Encoding a root struct whose depth-2 field holds the empty sequence
yields the line `b=;` — the trailing `;` is written even for zero items, so
the rendering is `";"`, not `""`. -/
theorem claim_C3_counterexample :
    to_string exSeqEmpty = .ok "[Desktop Entry]\nb=;\n\n" ∧
    (("[Desktop Entry]\nb=;\n\n" : String) == "[Desktop Entry]\nb=\n\n") = false :=
  ⟨rfl, by decide⟩

/-- C3 (amended): for a sequence of k string items (each nonempty and not
ending in `=`), rendered from a position whose accumulated output ends in
`=` (the position right after a key prefix, where the element loop starts),
the element loop plus `end` append exactly the k tokens joined by `;` plus
one trailing `;`; for k = 0 this appended rendering is the single character
`;` — not the empty string. -/
theorem claim_C3 (items : List String) (s : Serializer)
    (h1 : s.disable_write_key = true) (h2 : endsWithEq s.output = true)
    (h3 : ∀ x ∈ items, x.data ≠ [] ∧ endsWithEq x = false) :
    bindStep (serializeElems (items.map Value.str) s) seqEnd =
      ({ s with output := s.output ++ (joinSep items ++ ";"), disable_write_key := false }, .ok) := by
  rw [elemsStr items s h1 h2 h3]
  simp only [bindStep, seqEnd, stepOk, emit]
  simp [String.append_assoc]

/-- The depth-2 serializer state right after `b=` was emitted (C3 witness). -/
def c3state : Serializer := ⟨"[Desktop Entry]\nb=", ⟨2, some "b"⟩, true, [], [], []⟩

theorem claim_C3_witness :
    bindStep (serializeElems (["test", "string"].map Value.str) c3state) seqEnd =
      ({ c3state with output := c3state.output ++ (joinSep ["test", "string"] ++ ";"), disable_write_key := false }, .ok) :=
  claim_C3 ["test", "string"] c3state rfl rfl (by decide)

/-- C4: encoding the two-level value with root field `Desktop Entry` holding
the two string fields `Test` and `c` returns exactly the expected Desktop
Entry text (the repository's `tests::basic`). -/
theorem claim_C4 :
    to_string exBasic = .ok "[Desktop Entry]\nTest=test string\nc=Another one\n\n" := rfl

/-- C5: for a map of string entries sitting as the value of a struct field
at depth 2 (pending key `f` stored, entries serialized at depth 3), each
entry renders as the single line `f[key]=value` plus newline, one line per
entry, and the tracker returns to its prior state. -/
theorem claim_C5 (f : String) (entries : List (String × String)) (s : Serializer)
    (h2 : s.level.level = 2) (hk : s.level.key_name = some f) :
    (serializeValue (.map (entries.map fun p => (Value.str p.1, Value.str p.2))) s).2 = .ok ∧
    ((serializeValue (.map (entries.map fun p => (Value.str p.1, Value.str p.2))) s).1).output
      = s.output ++ renderEntries f entries ∧
    ((serializeValue (.map (entries.map fun p => (Value.str p.1, Value.str p.2))) s).1).level
      = s.level := by
  rcases s with ⟨out, ⟨lvl, key⟩, dis, gh, gw, gr⟩
  simp only at h2 hk
  subst h2
  subst hk
  have hmain : serializeValue (.map (entries.map fun p => (Value.str p.1, Value.str p.2)))
      (⟨out, ⟨2, some f⟩, dis, gh, gw, gr⟩ : Serializer) =
      (⟨out ++ renderEntries f entries, ⟨2, some f⟩, dis, gh, gw,
        gr ++ entries.map (fun _ => 3)⟩, .ok) := by
    simp only [serializeValue, bindStep, stepOk]
    rw [show ({ (⟨out, ⟨2, some f⟩, dis, gh, gw, gr⟩ : Serializer) with
      level := (⟨out, ⟨2, some f⟩, dis, gh, gw, gr⟩ : Serializer).level.open_level } : Serializer)
      = (⟨out, ⟨3, some f⟩, dis, gh, gw, gr⟩ : Serializer) from rfl]
    rw [entriesStr]
    have hcl : ({ level := 3, key_name := some f } : LevelTracker).close_level
        = ({ level := 2, key_name := some f } : LevelTracker) := by
      unfold LevelTracker.close_level
      simp
    simp only [bindStep, stepOk]
    rw [hcl]
  rw [hmain]
  exact ⟨rfl, rfl, rfl⟩

/-- The depth-2 serializer state with pending key `b` (C5 witness). -/
def c5state : Serializer := ⟨"", ⟨2, some "b"⟩, false, [], [], []⟩

/-- The C5 witness entries. -/
def c5entries : List (String × String) := [("es", "A"), ("en", "B")]

theorem claim_C5_witness :
    (serializeValue (.map (c5entries.map fun p => (Value.str p.1, Value.str p.2))) c5state).2
      = .ok ∧
    ((serializeValue (.map (c5entries.map fun p => (Value.str p.1, Value.str p.2))) c5state).1).output
      = c5state.output ++ renderEntries "b" c5entries ∧
    ((serializeValue (.map (c5entries.map fun p => (Value.str p.1, Value.str p.2))) c5state).1).level
      = c5state.level :=
  claim_C5 "b" c5entries c5state rfl rfl

/-- C6: the writer entry point first runs the full string encode; it hands
the sink exactly one chunk, the complete successful output — on an encode
error or panic, nothing at all is written to the sink. -/
theorem claim_C6 (v : Value) (sink : List String) :
    (∀ out, to_string v = .ok out → to_writer sink v = (sink ++ [out], .ok ())) ∧
    (∀ e, to_string v = .err e → to_writer sink v = (sink, .err e)) ∧
    (∀ m, to_string v = .panicked m → to_writer sink v = (sink, .panicked m)) := by
  refine ⟨fun out h => ?_, fun e h => ?_, fun m h => ?_⟩ <;> unfold to_writer <;> rw [h]

theorem claim_C6_witness :
    to_writer [] exBasic = (["[Desktop Entry]\nTest=test string\nc=Another one\n\n"], .ok ()) ∧
    to_writer [] exDeep = ([], .err (depthExceededError 4)) :=
  ⟨(claim_C6 exBasic []).1 "[Desktop Entry]\nTest=test string\nc=Another one\n\n" rfl,
   (claim_C6 exDeep []).2.1 (depthExceededError 4) rfl⟩

/-- C7 counterexample: the claim says the pending key is written and read
only while the depth equals 2.  On the repository's translations example the
ghost read trace is `[3, 3]`: the stored key is read at depth 3 (to build the
`b[es]=` and `b[en]=` prefixes), so reads are not confined to depth 2. -/
theorem claim_C7_counterexample :
    ((runEncode exTranslations).1).keyReads = [3, 3] ∧
    (((runEncode exTranslations).1).keyReads.all fun x => x == 2) = false :=
  ⟨rfl, rfl⟩

/-- C7 (amended): throughout every encode the pending key is written only at
depth 2 and read only at depth 2 (key prefix) or depth 3 (sub-key prefix),
and closing a level from depth 2 always clears the pending key. -/
theorem claim_C7 (v : Value) :
    (∀ x ∈ ((runEncode v).1).keyWrites, x = 2) ∧
    (∀ x ∈ ((runEncode v).1).keyReads, x = 2 ∨ x = 3) ∧
    (∀ t : LevelTracker, t.level = 2 → t.close_level.key_name = none) := by
  have h := traceV v initSerializer ⟨by simp [initSerializer], by simp [initSerializer]⟩
  exact ⟨h.1, h.2, close_level_clears⟩

theorem claim_C7_witness :
    (2 : Nat) = 2 ∧ ((3 : Nat) = 2 ∨ (3 : Nat) = 3) ∧
    (LevelTracker.close_level ⟨2, some "b"⟩).key_name = none :=
  ⟨(claim_C7 exTranslations).1 2 (by decide),
   (claim_C7 exTranslations).2.1 3 (by decide),
   (claim_C7 exTranslations).2.2 ⟨2, some "b"⟩ rfl⟩

/-- C8: encoding is deterministic — the entry point is a pure function of
the submitted value, so equal values give the same output string on success
and the same error on failure. -/
theorem claim_C8 (v1 v2 : Value) (h : v1 = v2) : to_string v1 = to_string v2 := by rw [h]

theorem claim_C8_witness : to_string exBasic = to_string exBasic :=
  claim_C8 exBasic exBasic rfl

/-- Recognizes the outcome of the depth-0 defensive panic. -/
def isRootPanicOutcome : Outcome String → Bool
  | .panicked m => m == "EEEErm"
  | _ => false

/-- A value on which the `u8` level wraps: a root struct whose first field
holds a sequence of 255 empty structs.  Structs never close the level they
open and empty structs dispatch no key, so after the root open (level 1) the
255 element opens leave the release build's wrapped level at 0 — and the
next top-level field, dispatched at level 0, hits the `panic!("EEEErm")`
arm.  (A debug build aborts on the 256th `self.level += 1` instead.) -/
def exWrap : Value :=
  .struct "R" [("a", .seq (List.replicate 255 (.struct "E" []))), ("b", .str "x")]

/-- A run of `n` semicolons: the text the element loop appends for `n`
empty-struct elements (one separator each, no element text). -/
def semis : Nat → String
  | 0 => ""
  | n + 1 => ";" ++ semis n

/-- The element loop over `n` empty structs: each iteration writes one `;`
separator and performs one unclosed `open_level`, so the loop succeeds and
leaves the wrapped level at `(lvl + n) % 256` — this is how an encode walks
the `u8` level all the way around with no depth check. -/
theorem repEmptyStructs (n : Nat) : ∀ (out : String) (lvl : Nat) (key : Option String)
    (dis : Bool) (gh : List String) (gw gr : List Nat),
    endsWithEq out = false → lvl ≤ 255 →
    serializeElems (List.replicate n (Value.struct "E" [])) ⟨out, ⟨lvl, key⟩, dis, gh, gw, gr⟩ =
      (⟨out ++ semis n, ⟨(lvl + n) % 256, key⟩, dis, gh, gw, gr⟩, .ok) := by
  induction n with
  | zero =>
      intro out lvl key dis gh gw gr h hl
      have e1 : out ++ semis 0 = out := by simp [semis]
      have e2 : (lvl + 0) % 256 = lvl := by omega
      simp only [List.replicate, serializeElems, stepOk]
      rw [e1, e2]
  | succ n ih =>
      intro out lvl key dis gh gw gr h hl
      rw [List.replicate_succ]
      simp only [serializeElems]
      rw [show seqElemSep ⟨out, ⟨lvl, key⟩, dis, gh, gw, gr⟩
          = (⟨out ++ ";", ⟨lvl, key⟩, dis, gh, gw, gr⟩ : Serializer) from by
        simp [seqElemSep, h, emit]]
      rw [show serializeValue (Value.struct "E" []) (⟨out ++ ";", ⟨lvl, key⟩, dis, gh, gw, gr⟩ : Serializer)
          = ((⟨out ++ ";", ⟨(lvl + 1) % 256, key⟩, dis, gh, gw, gr⟩ : Serializer), .ok) from rfl]
      simp only [bindStep]
      rw [ih (out ++ ";") ((lvl + 1) % 256) key dis gh gw gr
        (by rw [endsWithEq_append out ";" (by decide)]; decide) (by omega)]
      have e1 : out ++ ";" ++ semis n = out ++ semis (n + 1) := by
        simp [semis, String.append_assoc]
      have e2 : ((lvl + 1) % 256 + n) % 256 = (lvl + (n + 1)) % 256 := by omega
      rw [e1, e2]

/-- C9 counterexample: the claim says the depth-0 `panic!("EEEErm")` arm is
unreachable from the string entry point for every value.  On `exWrap` the
`u8` level wraps past 255 back to 0 with no depth check (structs never close
their level; empty structs dispatch no key at the elevated levels), and the
next field's key dispatch then runs at level 0 and panics `EEEErm`. -/
theorem claim_C9_counterexample :
    to_string exWrap = .panicked "EEEErm" ∧
    isRootPanicOutcome (to_string exWrap) = true := by
  have h1 : to_string exWrap = .panicked "EEEErm" := by
    unfold to_string runEncode exWrap
    simp only [serializeValue, serializeFields, bindStep, stepOk]
    rw [show ({ initSerializer with level := initSerializer.level.open_level } : Serializer)
        = (⟨"", ⟨1, none⟩, false, [], [], []⟩ : Serializer) from rfl]
    rw [show serialize_fieldKey "a" (⟨"", ⟨1, none⟩, false, [], [], []⟩ : Serializer)
        = ((⟨"[a]\n", ⟨1, none⟩, false, ["a"], [], []⟩ : Serializer), .ok) from rfl]
    simp only [bindStep]
    rw [show serialize_seq (⟨"[a]\n", ⟨1, none⟩, false, ["a"], [], []⟩ : Serializer)
        = ((⟨"[a]\n", ⟨1, none⟩, true, ["a"], [], []⟩ : Serializer), .ok) from rfl]
    simp only [bindStep]
    rw [repEmptyStructs 255 "[a]\n" 1 none true ["a"] [] [] (by decide) (by omega)]
    simp only [bindStep]
    rw [show seqEnd (⟨"[a]\n" ++ semis 255, ⟨(1 + 255) % 256, none⟩, true, ["a"], [], []⟩ : Serializer)
        = ((⟨("[a]\n" ++ semis 255) ++ ";", ⟨0, none⟩, false, ["a"], [], []⟩ : Serializer), .ok) from rfl]
    simp only [bindStep, stepOk]
    rw [show serialize_fieldKey "b"
          (emit (⟨("[a]\n" ++ semis 255) ++ ";", ⟨0, none⟩, false, ["a"], [], []⟩ : Serializer) "\n")
        = (emit (⟨("[a]\n" ++ semis 255) ++ ";", ⟨0, none⟩, false, ["a"], [], []⟩ : Serializer) "\n",
           .panicked "EEEErm") from rfl]
  exact ⟨h1, by rw [h1]; rfl⟩

/-- C9 (amended): for every encode started from the root via the string
entry point whose value holds at most 255 maps-plus-structs (so the `u8`
level cannot wrap), no map key or struct field is ever serialized at depth
0 — every map/struct opens a level before its keys are visited and, within
that open budget, the level stays at or above each composite's opening
level — so the source's depth-0 `panic!("EEEErm")` arm is unreachable. -/
theorem claim_C9 (v : Value) (h : composites v ≤ 255) :
    isRootPanicOutcome (to_string v) = false := by
  unfold to_string runEncode
  rcases hr : serializeValue v initSerializer with ⟨t, r⟩
  have hE := notEV v initSerializer (by show 0 + composites v ≤ 255; omega)
  rw [hr] at hE
  cases r
  · rfl
  · rfl
  · exact hE

theorem claim_C9_witness :
    composites exBasic ≤ 255 ∧ isRootPanicOutcome (to_string exBasic) = false :=
  ⟨by decide, claim_C9 exBasic (by decide)⟩

/-- The state at depth 1 used as the C10 witness. -/
def c10state : Serializer := ⟨"", ⟨1, none⟩, false, [], [], []⟩

/-- A serializer state whose tracker sits at level 255 with no pending key —
the tracker value the ok encode of `exPre255` below ends in. -/
def s255 : Serializer :=
  { output := "", level := { level := 255, key_name := none },
    disable_write_key := false, headers := [], keyWrites := [], keyReads := [] }

/-- A root struct whose single field holds a sequence of 254 empty structs:
its encode succeeds and leaves the tracker at level 255 — the state from
which one more `open_level` wraps to 0. -/
def exPre255 : Value :=
  .struct "R" [("a", .seq (List.replicate 254 (.struct "E" [])))]

/-- C10 counterexample: the claim says serializing a struct always leaves
the level at least one above its start.  The level-255 state is reachable
(the ok encode of `exPre255` ends with the tracker exactly at `s255.level`),
and from it a struct's `open_level` wraps the `u8` to 0 (release; a debug
build aborts): the empty struct finishes at level 0, not at 255 + 1. -/
theorem claim_C10_counterexample :
    (runEncode exPre255).2 = .ok ∧
    ((runEncode exPre255).1).level = s255.level ∧
    (serializeValue (.struct "E" []) s255).2 = .ok ∧
    ((serializeValue (.struct "E" []) s255).1).level.level = 0 ∧
    ¬ s255.level.level + 1 ≤ ((serializeValue (.struct "E" []) s255).1).level.level := by
  have h1 : runEncode exPre255
      = ((emit (⟨("[a]\n" ++ semis 254) ++ ";", ⟨255, none⟩, false, ["a"], [], []⟩ : Serializer) "\n",
         .ok)) := by
    unfold runEncode exPre255
    simp only [serializeValue, serializeFields, bindStep, stepOk]
    rw [show ({ initSerializer with level := initSerializer.level.open_level } : Serializer)
        = (⟨"", ⟨1, none⟩, false, [], [], []⟩ : Serializer) from rfl]
    rw [show serialize_fieldKey "a" (⟨"", ⟨1, none⟩, false, [], [], []⟩ : Serializer)
        = ((⟨"[a]\n", ⟨1, none⟩, false, ["a"], [], []⟩ : Serializer), .ok) from rfl]
    simp only [bindStep]
    rw [show serialize_seq (⟨"[a]\n", ⟨1, none⟩, false, ["a"], [], []⟩ : Serializer)
        = ((⟨"[a]\n", ⟨1, none⟩, true, ["a"], [], []⟩ : Serializer), .ok) from rfl]
    simp only [bindStep]
    rw [repEmptyStructs 254 "[a]\n" 1 none true ["a"] [] [] (by decide) (by omega)]
    simp only [bindStep]
    rw [show seqEnd (⟨"[a]\n" ++ semis 254, ⟨(1 + 254) % 256, none⟩, true, ["a"], [], []⟩ : Serializer)
        = ((⟨("[a]\n" ++ semis 254) ++ ";", ⟨255, none⟩, false, ["a"], [], []⟩ : Serializer), .ok) from rfl]
  refine ⟨by rw [h1], by rw [h1]; rfl, rfl, rfl, ?_⟩
  rw [show ((serializeValue (.struct "E" []) s255).1).level.level = 0 from rfl]
  omega

/-- C10 (amended): serializing a struct opens a level (it delegates to the
map path) but `SerializeStruct::end` never closes one — only
`SerializeMap::end` does.  Hence, whenever the struct's open budget keeps
the `u8` level from wrapping, after a struct value finishes the depth is at
least one greater than before it was opened, and exactly one greater
whenever its fields hold no further structs. -/
theorem claim_C10 (nm : String) (fs : List (String × Value)) (s : Serializer)
    (hbud : s.level.level + composites (.struct nm fs) ≤ 255) :
    s.level.level + 1 ≤ ((serializeValue (.struct nm fs) s).1).level.level ∧
    (∀ s' : Serializer, 1 ≤ s.level.level → structFreeFields fs = true →
      serializeValue (.struct nm fs) s = (s', .ok) →
      s'.level.level = s.level.level + 1) := by
  have hc : composites (Value.struct nm fs) = 1 + compositesFields fs := rfl
  have hopen : ({ s with level := s.level.open_level } : Serializer).level.level
      = s.level.level + 1 := by
    show (s.level.open_level).level = s.level.level + 1
    rw [open_level_level]
    omega
  constructor
  · simp only [serializeValue, bindStep, stepOk]
    have h := boundF fs { s with level := s.level.open_level } (by rw [hopen]; omega)
    rw [hopen] at h
    omega
  · intro s' hlev hfree hok
    simp only [serializeValue, bindStep, stepOk] at hok
    have h := pureF fs { s with level := s.level.open_level } s' hfree
      (by rw [hopen]; omega) (by rw [hopen]; omega) hok
    rw [hopen] at h
    exact h.1

theorem claim_C10_witness :
    c10state.level.level + composites (.struct "IA" [("x", Value.str "1")]) ≤ 255 ∧
    c10state.level.level + 1 ≤
      ((serializeValue (.struct "IA" [("x", Value.str "1")]) c10state).1).level.level ∧
    ((serializeValue (.struct "IA" [("x", Value.str "1")]) c10state).1).level.level
      = c10state.level.level + 1 :=
  ⟨by decide,
   (claim_C10 "IA" [("x", Value.str "1")] c10state (by decide)).1,
   (claim_C10 "IA" [("x", Value.str "1")] c10state (by decide)).2
     ((serializeValue (.struct "IA" [("x", Value.str "1")]) c10state).1) (by decide) rfl rfl⟩

end DesktopEntry